import Mathlib

/-!
clickcheck: a verification development.

A shallow embedding of the pure parts of `cmd/clicksend/clicksend.go` and
`cmd/clickserve/clickserve.go`, and theorems about them.

Go strings and byte slices are sequences of bytes; a byte is a number below 256.
-/

namespace Clickcheck

set_option maxRecDepth 100000

/-! ## Bytes and strings -/

/-- A Go `byte`. -/
abbrev Byte := Fin 256

/-- A Go `string` or `[]byte`: a sequence of bytes. -/
abbrev GoString := List Byte

/-- The bytes of an ASCII string literal. -/
def lit (s : String) : GoString := s.data.map (fun c => Fin.ofNat c.toNat)

/-- Outcome of running a loop with a step budget: a value, a run-time panic, or the budget
ran out before the loop ended. -/
inductive Run (α : Type) where
  | done : α → Run α
  | panic : Run α
  | fuelOut : Run α
  deriving DecidableEq, Repr

/-- The slice expression `s[lo:hi]` on a string; `none` is the run-time panic for indices
out of range. -/
def slice (s : GoString) (lo hi : Int) : Option GoString :=
  if 0 ≤ lo ∧ lo ≤ hi ∧ hi ≤ (s.length : Int) then
    some ((s.take hi.toNat).drop lo.toNat)
  else none

/-! ## clicksend: the base-26 identifier encoder (`newImage`) -/

/-- The constant `alphabet` of clicksend.go. -/
def alphabet : GoString := lit "abcdefghijklmnopqrstuvwxyz"

/-- The loop `for n > 0 { remainder := n % len(alphabet);
encoded = alphabet[remainder:remainder+1] + encoded; n /= len(alphabet) }` of `newImage`,
run for at most `fuel` tests of the loop condition. `%` and `/` are Go's truncated
remainder and quotient. -/
def encodeLoop : Nat → Int → GoString → Run GoString
  | 0, _, _ => Run.fuelOut
  | fuel + 1, n, encoded =>
    if n > 0 then
      let remainder := n.tmod (alphabet.length : Int)
      match slice alphabet remainder (remainder + 1) with
      | none => Run.panic
      | some digit => encodeLoop fuel (n.tdiv (alphabet.length : Int)) (digit ++ encoded)
    else Run.done encoded

/-- The token `newImage` computes for `imageID`: the loop started with `encoded := ""` and
`n := imageID`, with a step budget that is never exhausted (`encodeLoop_eq`). -/
def encode (imageID : Int) : Run GoString :=
  encodeLoop (imageID.toNat + 1) imageID []

/-- The letter standing for the base-26 digit `d`. -/
def letter (d : Nat) : Byte := Fin.ofNat (97 + d)

/-- The base-26 digits of `n`, most significant first, written as letters. -/
def token (n : Nat) : GoString := (Nat.digits 26 n).reverse.map letter

/-- The digit a letter stands for. -/
def unletter (b : Byte) : Nat := b.val - 97

/-! ## clicksend: conversion to CRLF line endings (`main`) -/

/-- One iteration of the loop `for _, c := range payload.Bytes() { switch c { ... } }`:
a line feed appends `\r`, `\n`; a carriage return appends nothing; any other byte is
appended as it is. -/
def crlfStep (enc : GoString) (c : Byte) : GoString :=
  if c = 10 then enc ++ [13, 10]
  else if c = 13 then enc
  else enc ++ [c]

/-- The conversion loop of `main`, started with the empty slice `enc`. -/
def toCRLF (payload : GoString) : GoString := payload.foldl crlfStep []

/-- Every line feed of `s` has a carriage return immediately before it. -/
def LFAfterCR (s : GoString) : Prop :=
  ∀ pre post, s = pre ++ 10 :: post → pre.getLast? = some 13

/-- Every carriage return of `s` has a line feed immediately after it. -/
def CRBeforeLF (s : GoString) : Prop :=
  ∀ pre post, s = pre ++ 13 :: post → post.head? = some 10

/-- All line endings of `s` are CRLF: no line feed without a carriage return before it, no
carriage return without a line feed after it. -/
def AllCRLF (s : GoString) : Prop := LFAfterCR s ∧ CRBeforeLF s

/-- An executable check of `AllCRLF` (`isCRLF_iff`). -/
def isCRLF : GoString → Bool
  | [] => true
  | [c] => c ≠ 13 && c ≠ 10
  | c :: d :: rest =>
    if c = 13 then d = 10 && isCRLF rest
    else if c = 10 then false
    else isCRLF (d :: rest)

/-! ## clicksend: the tracking parameters (`main`) -/

/-- `strings.IndexByte(s, sep)`-style cut: the text before and after the first `sep` in `s`,
`none` when `s` has no `sep`. -/
def cut (sep : Byte) : GoString → Option (GoString × GoString)
  | [] => none
  | c :: s =>
    if c = sep then some ([], s)
    else match cut sep s with
      | none => none
      | some (before, after) => some (c :: before, after)

/-- `strings.Split(s, sep)` for a one-byte separator: the pieces of `s` between the
separators, one more than there are separators. -/
def split (sep : Byte) : GoString → List GoString
  | [] => [[]]
  | c :: s =>
    if c = sep then [] :: split sep s
    else match split sep s with
      | [] => [[c]]
      | piece :: pieces => (c :: piece) :: pieces

/-- `strings.SplitN(s, sep, 2)` for a one-byte separator: `s` cut at its first separator,
or `s` alone when it has none. -/
def splitN2 (sep : Byte) (s : GoString) : List GoString :=
  match cut sep s with
  | none => [s]
  | some (before, after) => [before, after]

/-- A Go `url.Values`, `map[string][]string`, as a list of entries in insertion order. -/
abbrev Values := List (GoString × List GoString)

/-- The map lookup `v[key]` with its presence flag. -/
def Values.get : Values → GoString → Option (List GoString)
  | [], _ => none
  | (k, vs) :: rest, key => if k = key then some vs else Values.get rest key

/-- The map assignment `v[key] = vs`. -/
def Values.put : Values → GoString → List GoString → Values
  | [], key, vs => [(key, vs)]
  | (k, old) :: rest, key, vs =>
    if k = key then (k, vs) :: rest else (k, old) :: Values.put rest key vs

/-- The method `Values.Add`: `v[key] = append(v[key], value)`. -/
def Values.Add (v : Values) (key value : GoString) : Values :=
  v.put key ((v.get key).getD [] ++ [value])

/-- The statement `args = strings.Split(flag.Args()[0], "&")` or `args = flag.Args()`. -/
def positionalArgs (flagArgs : List GoString) : List GoString :=
  if flagArgs.length = 1 then
    match flagArgs with
    | a :: _ => split 38 a
    | [] => []
  else flagArgs

/-- One iteration of `for _, v := range args`: split at the first `=`, supply an empty value
when there is none, add the pair. `none` is an index out of range. -/
def addArg (parameters : Values) (v : GoString) : Option Values :=
  let parts := splitN2 61 v
  let parts := if parts.length = 1 then parts ++ [[]] else parts
  match parts.get? 0, parts.get? 1 with
  | some key, some value => some (parameters.Add key value)
  | _, _ => none

/-- The loop building `parameters` from `args`, started from the empty `url.Values{}`. -/
def buildParameters (args : List GoString) : Option Values :=
  args.foldlM addArg []

/-- The pair `(k, x)` is in the map: `k` is a key and `x` one of its values. -/
def Values.Has (p : Values) (k x : GoString) : Prop := ∃ vs, p.get k = some vs ∧ x ∈ vs

/-- The key of a token: the text before its first `=`. -/
def keyOf (v : GoString) : GoString := v.takeWhile (fun c => c ≠ 61)

/-- The value of a token: the text after its first `=`, empty when it has none. -/
def valueOf (v : GoString) : GoString := (v.dropWhile (fun c => c ≠ 61)).drop 1

/-! ## clickserve: the request handler (`main`)

The handler calls `strings.HasPrefix`, `html.EscapeString` and, through the verb `%q`,
`strconv.Quote`; these are embedded from the Go standard library, with `unicode/utf8`. -/

/-- `strings.HasPrefix(s, prefix)`: `len(s) >= len(prefix) && s[:len(prefix)] == prefix`. -/
def HasPrefix (s pre : GoString) : Bool :=
  decide (pre.length ≤ s.length) && decide (s.take pre.length = pre)

/-- The replacement `html.EscapeString` makes for one byte: its replacer maps `&`, `'`, `<`,
`>` and `"` to `&amp;`, `&#39;`, `&lt;`, `&gt;` and `&#34;`, and leaves other bytes. -/
def htmlReplacement (c : Byte) : GoString :=
  if c = 38 then lit "&amp;"
  else if c = 39 then lit "&#39;"
  else if c = 60 then lit "&lt;"
  else if c = 62 then lit "&gt;"
  else if c = 34 then lit "&#34;"
  else [c]

/-- `html.EscapeString`. -/
def EscapeString : GoString → GoString
  | [] => []
  | c :: s => htmlReplacement c ++ EscapeString s

/-- The constant `lowerhex` of strconv. -/
def lowerhex : GoString := lit "0123456789abcdef"

/-- The index expression `lowerhex[i]`; the index is below 16 at every use. -/
def lowerhexAt (i : Nat) : Byte := lowerhex.getD i 0

/-- `utf8.RuneError`. -/
def RuneError : Nat := 0xFFFD

/-- The table `first` of unicode/utf8, by ranges of the first byte: `as` (0xF0) for ASCII,
`xx` (0xF1) for an invalid first byte, otherwise the size in the low three bits and the index
of the accept range in the high four. -/
def first (b : Byte) : Nat :=
  if b.val < 0x80 then 0xF0
  else if b.val < 0xC2 then 0xF1
  else if b.val < 0xE0 then 0x02
  else if b.val = 0xE0 then 0x13
  else if b.val < 0xED then 0x03
  else if b.val = 0xED then 0x23
  else if b.val < 0xF0 then 0x03
  else if b.val = 0xF0 then 0x34
  else if b.val < 0xF4 then 0x04
  else if b.val = 0xF4 then 0x44
  else 0xF1

/-- The table `acceptRanges` of unicode/utf8: the lowest and highest second byte. -/
def acceptRanges (i : Nat) : Nat × Nat :=
  if i = 0 then (0x80, 0xBF)
  else if i = 1 then (0xA0, 0xBF)
  else if i = 2 then (0x80, 0x9F)
  else if i = 3 then (0x90, 0xBF)
  else if i = 4 then (0x80, 0x8F)
  else (0, 0)

/-- `utf8.DecodeRuneInString`: the first rune of `s` and its width in bytes. -/
def DecodeRuneInString (s : GoString) : Nat × Nat :=
  let n := s.length
  if n < 1 then (RuneError, 0)
  else
    let s0 := (s.getD 0 0).val
    let x := first (s.getD 0 0)
    if x ≥ 0xF0 then
      (if x &&& 1 = 1 then RuneError else s0, 1)
    else
      let sz := x &&& 7
      let accept := acceptRanges (x >>> 4)
      if n < sz then (RuneError, 1)
      else
        let s1 := (s.getD 1 0).val
        if s1 < accept.1 ∨ accept.2 < s1 then (RuneError, 1)
        else if sz ≤ 2 then (((s0 &&& 0x1F) <<< 6) ||| (s1 &&& 0x3F), 2)
        else
          let s2 := (s.getD 2 0).val
          if s2 < 0x80 ∨ 0xBF < s2 then (RuneError, 1)
          else if sz ≤ 3 then
            (((s0 &&& 0x0F) <<< 12) ||| ((s1 &&& 0x3F) <<< 6) ||| (s2 &&& 0x3F), 3)
          else
            let s3 := (s.getD 3 0).val
            if s3 < 0x80 ∨ 0xBF < s3 then (RuneError, 1)
            else
              (((s0 &&& 0x07) <<< 18) ||| ((s1 &&& 0x3F) <<< 12) ||| ((s2 &&& 0x3F) <<< 6)
                ||| (s3 &&& 0x3F), 4)

/-- The conversion `byte(r)` of a rune. -/
def byteOf (r : Nat) : Byte := Fin.ofNat r

/-- `utf8.AppendRune`: `p` followed by the UTF-8 encoding of `r`. -/
def AppendRune (p : GoString) (r : Nat) : GoString :=
  if r ≤ 0x7F then p ++ [byteOf r]
  else if r ≤ 0x7FF then
    p ++ [(0xC0 : Byte) ||| byteOf (r >>> 6), (0x80 : Byte) ||| (byteOf r &&& 0x3F)]
  else if r > 0x10FFFF ∨ (0xD800 ≤ r ∧ r ≤ 0xDFFF) then
    p ++ [(0xE0 : Byte) ||| byteOf (RuneError >>> 12),
      (0x80 : Byte) ||| (byteOf (RuneError >>> 6) &&& 0x3F),
      (0x80 : Byte) ||| (byteOf RuneError &&& 0x3F)]
  else if r ≤ 0xFFFF then
    p ++ [(0xE0 : Byte) ||| byteOf (r >>> 12), (0x80 : Byte) ||| (byteOf (r >>> 6) &&& 0x3F),
      (0x80 : Byte) ||| (byteOf r &&& 0x3F)]
  else
    p ++ [(0xF0 : Byte) ||| byteOf (r >>> 18), (0x80 : Byte) ||| (byteOf (r >>> 12) &&& 0x3F),
      (0x80 : Byte) ||| (byteOf (r >>> 6) &&& 0x3F), (0x80 : Byte) ||| (byteOf r &&& 0x3F)]

/-- `strconv.IsPrint`: decided in the code for runes up to 0xFF, and by the tables of strconv
above that; `table` stands for the tables. -/
def IsPrint (table : Nat → Bool) (r : Nat) : Bool :=
  if r ≤ 0xFF then
    if 0x20 ≤ r ∧ r ≤ 0x7E then true
    else if 0xA1 ≤ r ∧ r ≤ 0xFF then decide (r ≠ 0xAD)
    else false
  else table r

/-- `utf8.ValidRune`. -/
def ValidRune (r : Nat) : Bool :=
  if r < 0xD800 then true
  else if 0xDFFF < r ∧ r ≤ 0x10FFFF then true
  else false

/-- The loop `for s := hi; s >= 0; s -= 4 { buf = append(buf, lowerhex[r>>uint(s)&0xF]) }`
of `appendEscapedRune`, for `hi = 4 * (digits - 1)`. -/
def appendHex (buf : GoString) (r : Nat) : Nat → GoString
  | 0 => buf
  | digits + 1 => appendHex (buf ++ [lowerhexAt ((r >>> (4 * digits)) &&& 0xF)]) r digits

/-- `appendEscapedRune(buf, r, quote, ASCIIonly, graphicOnly)` of strconv, as `Quote` calls
it: `quote` is `"`, and `ASCIIonly` and `graphicOnly` are false. -/
def appendEscapedRune (table : Nat → Bool) (buf : GoString) (r : Nat) : GoString :=
  if r = 34 ∨ r = 92 then buf ++ [92, byteOf r]
  else if IsPrint table r then AppendRune buf r
  else if r = 7 then buf ++ lit "\\a"
  else if r = 8 then buf ++ lit "\\b"
  else if r = 12 then buf ++ lit "\\f"
  else if r = 10 then buf ++ lit "\\n"
  else if r = 13 then buf ++ lit "\\r"
  else if r = 9 then buf ++ lit "\\t"
  else if r = 11 then buf ++ lit "\\v"
  else if r < 32 ∨ r = 0x7F then
    buf ++ lit "\\x" ++ [lowerhexAt (byteOf r >>> 4).val, lowerhexAt (byteOf r &&& 0xF).val]
  else if !ValidRune r then appendHex (buf ++ lit "\\u") RuneError 4
  else if r < 0x10000 then appendHex (buf ++ lit "\\u") r 4
  else appendHex (buf ++ lit "\\U") r 8

/-- The loop `for width := 0; len(s) > 0; s = s[width:]` of strconv's `appendQuotedWith`,
run for at most `fuel` tests of its condition; a slice out of range is a panic. -/
def quoteLoop (table : Nat → Bool) : Nat → GoString → GoString → Run GoString
  | 0, _, _ => Run.fuelOut
  | fuel + 1, s, buf =>
    if s.length > 0 then
      let s0 := s.getD 0 0
      let decoded := if s0.val ≥ 0x80 then DecodeRuneInString s else (s0.val, 1)
      let r := decoded.1
      let width := decoded.2
      if width ≤ s.length then
        if width = 1 ∧ r = RuneError then
          quoteLoop table fuel (s.drop width)
            (buf ++ lit "\\x" ++ [lowerhexAt (s0 >>> 4).val, lowerhexAt (s0 &&& 0xF).val])
        else quoteLoop table fuel (s.drop width) (appendEscapedRune table buf r)
      else Run.panic
    else Run.done buf

/-- `strconv.Quote(s)`, which is what the verb `%q` of fmt prints for a string: an opening
quote, the loop, a closing quote. -/
def Quote (table : Nat → Bool) (s : GoString) : Run GoString :=
  match quoteLoop table (s.length + 1) s [34] with
  | Run.done buf => Run.done (buf ++ [34])
  | Run.panic => Run.panic
  | Run.fuelOut => Run.fuelOut

/-- What the handler reads of an `http.Request`. `Form` and `ParseFormErr` are what
`r.ParseForm()` of net/http leaves in `r.Form` and returns. -/
structure Request where
  Host : GoString
  Path : GoString
  URL : GoString
  RemoteAddr : GoString
  Form : Values
  ParseFormErr : Option GoString

/-- A line written with `log.Printf`. -/
inductive LogLine where
  | parseFailed (url err : GoString)
  | request (host url remoteAddr : GoString)
  deriving DecidableEq

/-- What the handler does: the status and body of the response, the lines logged and the
records encoded to standard output, in order. -/
structure Response where
  status : Nat
  body : GoString
  logged : List LogLine
  records : List Values
  deriving DecidableEq

/-- The handler function of `main`. `http.Error(w, "piss off", 404)` answers 404 with the
message and a newline; the first write to `w` without a status answers 200. -/
def handler (table : Nat → Bool) (r : Request) : Run Response :=
  if !HasPrefix r.Host (lit "click") then
    Run.done { status := 404, body := lit "piss off\n", logged := [], records := [] }
  else
    let logged := match r.ParseFormErr with
      | some err => [LogLine.parseFailed r.URL err]
      | none => []
    let logged := logged ++ [LogLine.request r.Host r.URL r.RemoteAddr]
    match Quote table (EscapeString r.Path) with
    | Run.done quoted =>
      Run.done { status := 200, body := lit "Hello from " ++ quoted, logged := logged,
                 records := [r.Form] }
    | Run.panic => Run.panic
    | Run.fuelOut => Run.fuelOut


/-- The character references `html.EscapeString` writes. -/
def entities : List GoString :=
  [lit "&amp;", lit "&#39;", lit "&lt;", lit "&gt;", lit "&#34;"]

/-- A text that cannot open or close markup: it has no `<` and no `>`, and every `&` in it
begins one of the character references. -/
def NoMarkup (t : GoString) : Prop :=
  (60 : Byte) ∉ t ∧ (62 : Byte) ∉ t ∧
    ∀ pre post, t = pre ++ 38 :: post → ∃ e ∈ entities, e <+: 38 :: post

/-- A text without `&`, `<` and `>`. -/
def Clean (t : GoString) : Prop := ∀ b ∈ t, b ≠ 38 ∧ b ≠ 60 ∧ b ≠ 62

/-- A printable ASCII byte other than the double quote and the backslash: `Quote` copies
it. -/
def Plain (b : Byte) : Prop := 0x20 ≤ b.val ∧ b.val ≤ 0x7E ∧ b ≠ 34 ∧ b ≠ 92

/-! ## net/url: escaping

`main` of clicksend calls `url.Parse`, `Values.Encode` and `URL.String`; they and what they
call are embedded from the Go standard library (net/url as of Go 1.22). -/

/-- The escaping modes of net/url. -/
inductive encoding where
  | encodePath
  | encodePathSegment
  | encodeHost
  | encodeZone
  | encodeUserPassword
  | encodeQueryComponent
  | encodeFragment
  deriving DecidableEq, Repr

open encoding

/-- The constant `upperhex` of net/url. -/
def upperhex : GoString := lit "0123456789ABCDEF"

/-- The index expression `upperhex[i]`; the index is below 16 at every use. -/
def upperhexAt (i : Nat) : Byte := upperhex.getD i 0

/-- `ishex` of net/url. -/
def ishex (c : Byte) : Bool :=
  (48 ≤ c.val ∧ c.val ≤ 57) ∨ (97 ≤ c.val ∧ c.val ≤ 102) ∨ (65 ≤ c.val ∧ c.val ≤ 70)

/-- `unhex` of net/url. -/
def unhex (c : Byte) : Byte :=
  if 48 ≤ c.val ∧ c.val ≤ 57 then c - 48
  else if 97 ≤ c.val ∧ c.val ≤ 102 then c - 97 + 10
  else if 65 ≤ c.val ∧ c.val ≤ 70 then c - 65 + 10
  else 0

/-- `shouldEscape(c, mode)` of net/url. -/
def shouldEscape (c : Byte) (mode : encoding) : Bool :=
  if (97 ≤ c.val ∧ c.val ≤ 122) ∨ (65 ≤ c.val ∧ c.val ≤ 90) ∨ (48 ≤ c.val ∧ c.val ≤ 57) then
    false
  else if (mode = encodeHost ∨ mode = encodeZone) ∧
      c ∈ (lit "!$&'()*+,;=:[]<>\"") then
    false
  else if c ∈ lit "-_.~" then false
  else if c ∈ lit "$&+,/:;=?@" then
    match mode with
    | encodePath => c = 63
    | encodePathSegment => c = 47 ∨ c = 59 ∨ c = 44 ∨ c = 63
    | encodeUserPassword => c = 64 ∨ c = 47 ∨ c = 63 ∨ c = 58
    | encodeQueryComponent => true
    | encodeFragment => false
    | _ => true
  else if mode = encodeFragment ∧ c ∈ lit "!()*" then false
  else true

/-- What the last loop of `escape` writes for one byte. -/
def escapeByte (mode : encoding) (c : Byte) : GoString :=
  if c = 32 ∧ mode = encodeQueryComponent then [43]
  else if shouldEscape c mode then [37, upperhexAt (c >>> 4).val, upperhexAt (c &&& 15).val]
  else [c]

/-- `escape(s, mode)` of net/url: `s` itself when nothing is to be escaped, spaces turned
into `+` when only spaces are, and the byte-by-byte loop otherwise. -/
def escape (s : GoString) (mode : encoding) : GoString :=
  let spaceCount := s.countP
    (fun c => shouldEscape c mode && decide (c = 32 ∧ mode = encodeQueryComponent))
  let hexCount := s.countP
    (fun c => shouldEscape c mode && !decide (c = 32 ∧ mode = encodeQueryComponent))
  if spaceCount = 0 ∧ hexCount = 0 then s
  else if hexCount = 0 then s.map (fun c => if c = 32 then 43 else c)
  else (s.map (escapeByte mode)).flatten

/-- `QueryEscape` of net/url. -/
def QueryEscape (s : GoString) : GoString := escape s encodeQueryComponent

deriving instance DecidableEq for Except

/-- The errors of `unescape`: an `EscapeError` or an `InvalidHostError`, with the text. -/
inductive UrlError where
  | EscapeError (s : GoString)
  | InvalidHostError (s : GoString)
  | other (msg : String)
  deriving DecidableEq, Repr

/-- The first loop of `unescape(s, mode)`: it counts the `%` and checks that each is
followed by two hex digits, and returns the count and `hasPlus`. -/
def unescapeCheck (mode : encoding) : GoString → Nat → Bool → Except UrlError (Nat × Bool)
  | [], n, hasPlus => Except.ok (n, hasPlus)
  | c :: rest, n, hasPlus =>
    if c = 37 then
      match rest with
      | a :: b :: rest2 =>
        if !ishex a ∨ !ishex b then Except.error (UrlError.EscapeError [c, a, b])
        else if mode = encodeHost ∧ (unhex a).val < 8 ∧ [c, a, b] ≠ lit "%25" then
          Except.error (UrlError.EscapeError [c, a, b])
        else if mode = encodeZone ∧ [c, a, b] ≠ lit "%25" ∧
            (unhex a <<< 4 ||| unhex b) ≠ 32 ∧
            shouldEscape (unhex a <<< 4 ||| unhex b) encodeHost then
          Except.error (UrlError.EscapeError [c, a, b])
        else unescapeCheck mode rest2 (n + 1) hasPlus
      | _ => Except.error (UrlError.EscapeError (c :: rest))
    else if c = 43 then unescapeCheck mode rest n (decide (mode = encodeQueryComponent))
    else if (mode = encodeHost ∨ mode = encodeZone) ∧ c.val < 0x80 ∧
        shouldEscape c encodeHost then
      Except.error (UrlError.InvalidHostError [c])
    else unescapeCheck mode rest n hasPlus

/-- The second loop of `unescape(s, mode)`, run on a string the first loop accepted. -/
def unescapeBuild (mode : encoding) : GoString → GoString
  | [] => []
  | c :: rest =>
    if c = 37 then
      match rest with
      | a :: b :: rest2 => (unhex a <<< 4 ||| unhex b) :: unescapeBuild mode rest2
      | _ => []
    else if c = 43 then
      (if mode = encodeQueryComponent then 32 else 43) :: unescapeBuild mode rest
    else c :: unescapeBuild mode rest

/-- `unescape(s, mode)` of net/url. -/
def unescape (s : GoString) (mode : encoding) : Except UrlError GoString :=
  match unescapeCheck mode s 0 false with
  | Except.error e => Except.error e
  | Except.ok (n, hasPlus) =>
    if n = 0 ∧ !hasPlus then Except.ok s else Except.ok (unescapeBuild mode s)

/-- `QueryUnescape` of net/url. -/
def QueryUnescape (s : GoString) : Except UrlError GoString := unescape s encodeQueryComponent

/-! ## net/url: `Values.Encode` and `ParseQuery` -/

/-- The comparison `a <= b` of Go strings: byte by byte. -/
def strLE : GoString → GoString → Bool
  | [], _ => true
  | _ :: _, [] => false
  | a :: as, b :: bs => decide (a.val < b.val) || (decide (a = b) && strLE as bs)

/-- `slices.Sort(keys)` on strings: the keys in increasing order. -/
def sortStrings (keys : List GoString) : List GoString :=
  keys.insertionSort (fun a b => strLE a b = true)

/-- The keys of the map, as `for k := range v` collects them. -/
def Values.keys (v : Values) : List GoString := v.map Prod.fst

/-- The inner loop of `Values.Encode` for one key: for each value, a `&` when the buffer is
not empty, the escaped key, `=`, and the escaped value. -/
def encodeValues (keyEscaped : GoString) (buf : GoString) (vs : List GoString) : GoString :=
  vs.foldl (fun buf v =>
    (if buf.length > 0 then buf ++ [38] else buf) ++ keyEscaped ++ [61] ++ QueryEscape v) buf

/-- The method `Values.Encode` of net/url: the pairs in the order of the sorted keys. -/
def Values.Encode (v : Values) : GoString :=
  if v.length = 0 then []
  else
    (sortStrings v.keys).foldl
      (fun buf k => encodeValues (QueryEscape k) buf ((v.get k).getD [])) []

/-- The loop of `parseQuery(m, query)` of net/url, run for at most `fuel` tests of its
condition: it returns the map and the first error. -/
def parseQueryLoop :
    Nat → Values → Option UrlError → GoString → Run (Values × Option UrlError)
  | 0, _, _, _ => Run.fuelOut
  | fuel + 1, m, err, query =>
    if query ≠ [] then
      let key := match cut 38 query with
        | some (before, _) => before
        | none => query
      let query := match cut 38 query with
        | some (_, after) => after
        | none => []
      if (59 : Byte) ∈ key then
        parseQueryLoop fuel m (some (UrlError.other "invalid semicolon separator in query")) query
      else if key = [] then parseQueryLoop fuel m err query
      else
        let value := match cut 61 key with
          | some (_, after) => after
          | none => []
        let key := match cut 61 key with
          | some (before, _) => before
          | none => key
        match QueryUnescape key with
        | Except.error err1 =>
          parseQueryLoop fuel m (if err = none then some err1 else err) query
        | Except.ok key =>
          match QueryUnescape value with
          | Except.error err1 =>
            parseQueryLoop fuel m (if err = none then some err1 else err) query
          | Except.ok value => parseQueryLoop fuel (m.Add key value) err query
    else Run.done (m, err)

/-- `ParseQuery` of net/url: the loop on an empty map, with a step budget that is never
exhausted. -/
def ParseQuery (query : GoString) : Run (Values × Option UrlError) :=
  parseQueryLoop (query.length + 1) [] none query


/-- One pair of `Values.Encode`: the escaped key, `=`, the escaped value. -/
def segment (p : GoString × GoString) : GoString :=
  QueryEscape p.1 ++ [61] ++ QueryEscape p.2

/-- Segments joined by `&`. -/
def joinSegments : List GoString → GoString
  | [] => []
  | [s] => s
  | s :: t :: rest => s ++ 38 :: joinSegments (t :: rest)

/-- The pairs of the map in the order `Values.Encode` writes them: by sorted key, the
values of a key in their order. -/
def Values.pairs (v : Values) : List (GoString × GoString) :=
  ((sortStrings v.keys).map (fun k => ((v.get k).getD []).map (fun x => (k, x)))).flatten

/-- A map as `Values.Add` builds it: no key twice, no key without a value. -/
def Values.WF (v : Values) : Prop :=
  v.keys.Nodup ∧ ∀ k vs, v.get k = some vs → vs ≠ []

/-! ## net/url: `URL`, `Parse` and `String` -/

/-- `url.Userinfo`. -/
structure Userinfo where
  username : GoString
  password : GoString
  passwordSet : Bool
  deriving DecidableEq, Repr

/-- `url.URL`. -/
structure URL where
  Scheme : GoString := []
  Opaque : GoString := []
  User : Option Userinfo := none
  Host : GoString := []
  Path : GoString := []
  RawPath : GoString := []
  OmitHost : Bool := false
  ForceQuery : Bool := false
  RawQuery : GoString := []
  Fragment : GoString := []
  RawFragment : GoString := []
  deriving DecidableEq, Repr

/-- `strings.HasSuffix(s, suffix)`. -/
def HasSuffix (s suffix : GoString) : Bool :=
  decide (suffix.length ≤ s.length) && decide (s.drop (s.length - suffix.length) = suffix)

/-- `strings.Index(s, sub)`: the index of the first `sub` in `s`. -/
def Index (sub : GoString) : GoString → Option Nat
  | [] => if sub = [] then some 0 else none
  | c :: s =>
    if sub.isPrefixOf (c :: s) then some 0
    else match Index sub s with
      | some i => some (i + 1)
      | none => none

/-- `strings.LastIndex(s, sep)` for a one-byte separator. -/
def LastIndex (sep : Byte) : GoString → Option Nat
  | [] => none
  | c :: s =>
    match LastIndex sep s with
    | some i => some (i + 1)
    | none => if c = sep then some 0 else none

/-- `strings.ToLower` on a string of ASCII bytes. -/
def ToLower (s : GoString) : GoString :=
  s.map (fun c => if 65 ≤ c.val ∧ c.val ≤ 90 then c + 32 else c)

/-- `stringContainsCTLByte` of net/url. -/
def stringContainsCTLByte (s : GoString) : Bool :=
  s.any (fun b => decide (b.val < 32 ∨ b.val = 0x7f))

/-- The loop of `getScheme(rawURL)` from index `i`, with the bytes from `i` on. -/
def getSchemeLoop (rawURL : GoString) : Nat → GoString → Except UrlError (GoString × GoString)
  | _, [] => Except.ok ([], rawURL)
  | i, c :: rest =>
    if (97 ≤ c.val ∧ c.val ≤ 122) ∨ (65 ≤ c.val ∧ c.val ≤ 90) then
      getSchemeLoop rawURL (i + 1) rest
    else if (48 ≤ c.val ∧ c.val ≤ 57) ∨ c = 43 ∨ c = 45 ∨ c = 46 then
      if i = 0 then Except.ok ([], rawURL) else getSchemeLoop rawURL (i + 1) rest
    else if c = 58 then
      if i = 0 then Except.error (UrlError.other "missing protocol scheme")
      else Except.ok (rawURL.take i, rawURL.drop (i + 1))
    else Except.ok ([], rawURL)

/-- `getScheme(rawURL)` of net/url. -/
def getScheme (rawURL : GoString) : Except UrlError (GoString × GoString) :=
  getSchemeLoop rawURL 0 rawURL

/-- `validOptionalPort` of net/url. -/
def validOptionalPort (port : GoString) : Bool :=
  match port with
  | [] => true
  | c :: digits => decide (c = 58) && digits.all (fun b => decide (48 ≤ b.val ∧ b.val ≤ 57))

/-- `validUserinfo` of net/url. -/
def validUserinfo (s : GoString) : Bool :=
  s.all (fun r => decide ((65 ≤ r.val ∧ r.val ≤ 90) ∨ (97 ≤ r.val ∧ r.val ≤ 122) ∨
    (48 ≤ r.val ∧ r.val ≤ 57)) || decide (r ∈ lit "-._:~!$&'()*+,;=%@"))

/-- `parseHost` of net/url. -/
def parseHost (host : GoString) : Except UrlError GoString :=
  let bracket : Except UrlError (Option GoString) :=
    if HasPrefix host (lit "[") then
      match LastIndex 93 host with
      | none => Except.error (UrlError.other "missing ']' in host")
      | some i =>
        if !validOptionalPort (host.drop (i + 1)) then
          Except.error (UrlError.other "invalid port after host")
        else
          match Index (lit "%25") (host.take i) with
          | some zone =>
            match unescape (host.take zone) encodeHost with
            | Except.error e => Except.error e
            | Except.ok host1 =>
              match unescape ((host.take i).drop zone) encodeZone with
              | Except.error e => Except.error e
              | Except.ok host2 =>
                match unescape (host.drop i) encodeHost with
                | Except.error e => Except.error e
                | Except.ok host3 => Except.ok (some (host1 ++ host2 ++ host3))
          | none => Except.ok none
    else
      match LastIndex 58 host with
      | some i =>
        if !validOptionalPort (host.drop i) then
          Except.error (UrlError.other "invalid port after host")
        else Except.ok none
      | none => Except.ok none
  match bracket with
  | Except.error e => Except.error e
  | Except.ok (some h) => Except.ok h
  | Except.ok none => unescape host encodeHost

/-- `parseAuthority` of net/url. -/
def parseAuthority (authority : GoString) : Except UrlError (Option Userinfo × GoString) :=
  let i := LastIndex 64 authority
  let hostResult := match i with
    | none => parseHost authority
    | some i => parseHost (authority.drop (i + 1))
  match hostResult with
  | Except.error e => Except.error e
  | Except.ok host =>
    match i with
    | none => Except.ok (none, host)
    | some i =>
      let userinfo := authority.take i
      if !validUserinfo userinfo then Except.error (UrlError.other "net/url: invalid userinfo")
      else if (58 : Byte) ∉ userinfo then
        match unescape userinfo encodeUserPassword with
        | Except.error e => Except.error e
        | Except.ok userinfo =>
          Except.ok (some { username := userinfo, password := [], passwordSet := false }, host)
      else
        let username := match cut 58 userinfo with
          | some (before, _) => before
          | none => userinfo
        let password := match cut 58 userinfo with
          | some (_, after) => after
          | none => []
        match unescape username encodeUserPassword with
        | Except.error e => Except.error e
        | Except.ok username =>
          match unescape password encodeUserPassword with
          | Except.error e => Except.error e
          | Except.ok password =>
            Except.ok (some { username := username, password := password,
                              passwordSet := true }, host)

/-- The method `setPath` of `URL`. -/
def URL.setPath (u : URL) (p : GoString) : Except UrlError URL :=
  match unescape p encodePath with
  | Except.error e => Except.error e
  | Except.ok path =>
    if p = escape path encodePath then Except.ok { u with Path := path, RawPath := [] }
    else Except.ok { u with Path := path, RawPath := p }

/-- The method `setFragment` of `URL`. -/
def URL.setFragment (u : URL) (f : GoString) : Except UrlError URL :=
  match unescape f encodeFragment with
  | Except.error e => Except.error e
  | Except.ok frag =>
    if f = escape frag encodeFragment then
      Except.ok { u with Fragment := frag, RawFragment := [] }
    else Except.ok { u with Fragment := frag, RawFragment := f }

/-- `parse(rawURL, viaRequest)` of net/url with `viaRequest` false, as `Parse` calls it. -/
def parse (rawURL : GoString) : Except UrlError URL :=
  if stringContainsCTLByte rawURL then
    Except.error (UrlError.other "net/url: invalid control character in URL")
  else if rawURL = lit "*" then Except.ok { Path := lit "*" }
  else
    match getScheme rawURL with
    | Except.error e => Except.error e
    | Except.ok (scheme, rest) =>
      let url : URL := { Scheme := ToLower scheme }
      let forceQuery := HasSuffix rest (lit "?") && decide (rest.count 63 = 1)
      let url : URL :=
        if forceQuery then { url with ForceQuery := true }
        else match cut 63 rest with
          | some (_, after) => { url with RawQuery := after }
          | none => url
      let rest :=
        if forceQuery then rest.take (rest.length - 1)
        else match cut 63 rest with
          | some (before, _) => before
          | none => rest
      if !HasPrefix rest (lit "/") ∧ url.Scheme ≠ [] then Except.ok { url with Opaque := rest }
      else if !HasPrefix rest (lit "/") ∧
          (58 : Byte) ∈ (match cut 47 rest with
            | some (segment, _) => segment
            | none => rest) then
        Except.error (UrlError.other "first path segment in URL cannot contain colon")
      else if (url.Scheme ≠ [] ∨ !HasPrefix rest (lit "///")) ∧ HasPrefix rest (lit "//") then
        let authority := match Index (lit "/") (rest.drop 2) with
          | some i => (rest.drop 2).take i
          | none => rest.drop 2
        let rest := match Index (lit "/") (rest.drop 2) with
          | some i => (rest.drop 2).drop i
          | none => []
        match parseAuthority authority with
        | Except.error e => Except.error e
        | Except.ok (user, host) => URL.setPath { url with User := user, Host := host } rest
      else if url.Scheme ≠ [] ∧ HasPrefix rest (lit "/") then
        URL.setPath { url with OmitHost := true } rest
      else URL.setPath url rest

/-- `url.Parse`: the fragment is cut off and set after the rest is parsed. The wrapping of
an error in `url.Error` is left out. -/
def Parse (rawURL : GoString) : Except UrlError URL :=
  let u := match cut 35 rawURL with
    | some (before, _) => before
    | none => rawURL
  let frag := match cut 35 rawURL with
    | some (_, after) => after
    | none => []
  match parse u with
  | Except.error e => Except.error e
  | Except.ok url => if frag = [] then Except.ok url else URL.setFragment url frag

/-- The method `String` of `Userinfo`, for a non-nil receiver. -/
def Userinfo.String (u : Userinfo) : GoString :=
  let s := escape u.username encodeUserPassword
  if u.passwordSet then s ++ lit ":" ++ escape u.password encodeUserPassword else s

/-- `validEncoded` of net/url. -/
def validEncoded (s : GoString) (mode : encoding) : Bool :=
  s.all (fun c =>
    if c ∈ lit "!$&'()*+,;=:@" then true
    else if c ∈ lit "[]" then true
    else if c = 37 then true
    else !shouldEscape c mode)

/-- The method `EscapedPath` of `URL`. -/
def URL.EscapedPath (u : URL) : GoString :=
  if u.RawPath ≠ [] ∧ validEncoded u.RawPath encodePath ∧
      unescape u.RawPath encodePath = Except.ok u.Path then u.RawPath
  else if u.Path = lit "*" then lit "*"
  else escape u.Path encodePath

/-- The method `EscapedFragment` of `URL`. -/
def URL.EscapedFragment (u : URL) : GoString :=
  if u.RawFragment ≠ [] ∧ validEncoded u.RawFragment encodeFragment ∧
      unescape u.RawFragment encodeFragment = Except.ok u.Fragment then u.RawFragment
  else escape u.Fragment encodeFragment

/-- The first part of the method `String` of `URL`: the scheme and a colon. -/
def URL.writeScheme (u : URL) : GoString :=
  if u.Scheme ≠ [] then u.Scheme ++ [58] else []

/-- The part of `String` for `if u.Scheme != "" || u.Host != "" || u.User != nil`: the two
slashes, the user information and the escaped host. -/
def URL.writeAuthority (u : URL) (buf : GoString) : GoString :=
  if u.Scheme ≠ [] ∨ u.Host ≠ [] ∨ u.User ≠ none then
    if u.OmitHost ∧ u.Host = [] ∧ u.User = none then buf
    else
      let buf : GoString :=
        if u.Host ≠ [] ∨ u.Path ≠ [] ∨ u.User ≠ none then buf ++ lit "//" else buf
      let buf : GoString := match u.User with
        | some ui => buf ++ ui.String ++ [64]
        | none => buf
      if u.Host ≠ [] then buf ++ escape u.Host encodeHost else buf
  else buf

/-- The part of `String` that writes the escaped path: after a slash when the path is
relative and there is a host, after `./` when nothing is written yet and the first segment
has a colon. -/
def URL.writePath (u : URL) (buf : GoString) : GoString :=
  let path : GoString := u.EscapedPath
  let segment : GoString := match cut 47 path with
    | some (segment, _) => segment
    | none => path
  let buf : GoString :=
    if path ≠ [] ∧ path.head? ≠ some 47 ∧ u.Host ≠ [] then buf ++ [47] else buf
  let buf : GoString :=
    if buf.length = 0 ∧ (58 : Byte) ∈ segment then buf ++ lit "./" else buf
  buf ++ path

/-- The part of `String` for `if u.ForceQuery || u.RawQuery != ""`. -/
def URL.writeQuery (u : URL) (buf : GoString) : GoString :=
  if u.ForceQuery ∨ u.RawQuery ≠ [] then buf ++ [63] ++ u.RawQuery else buf

/-- The part of `String` for `if u.Fragment != ""`. -/
def URL.writeFragment (u : URL) (buf : GoString) : GoString :=
  if u.Fragment ≠ [] then buf ++ [35] ++ u.EscapedFragment else buf

/-- The method `String` of `URL`: the scheme, the opaque part or else the authority and the
path, the query, the fragment. -/
def URL.String (u : URL) : GoString :=
  u.writeFragment (u.writeQuery
    (if u.Opaque ≠ [] then u.writeScheme ++ u.Opaque
     else u.writePath (u.writeAuthority u.writeScheme)))

/-! ## clicksend: the link (`main`) -/

/-- The statements `if path != "" { u.Path = path }` and
`u.RawQuery = parameters.Encode()` of `main`. -/
def setLink (u : URL) (path : GoString) (parameters : Values) : URL :=
  let u := if path ≠ [] then { u with Path := path } else u
  { u with RawQuery := parameters.Encode }

/-- The link of `main`: `url.Parse(c.URL)`, which is fatal when it fails, the path and the
query set, then `u.String()`. -/
def buildLink (cURL path : GoString) (parameters : Values) : Except UrlError GoString :=
  match Parse cURL with
  | Except.error e => Except.error e
  | Except.ok u => Except.ok (setLink u path parameters).String

/-! ## Theorems -/

/-! ### Encoder lemmas -/

theorem alphabet_length : alphabet.length = 26 := by decide

theorem slice_alphabet (r : Nat) (h : r < 26) :
    slice alphabet (r : Int) ((r : Int) + 1) = some [letter r] := by
  have key : ∀ i : Fin 26,
      slice alphabet ((i.val : Nat) : Int) (((i.val : Nat) : Int) + 1) = some [letter i.val] := by
    decide
  exact key ⟨r, h⟩

theorem encodeLoop_nat (fuel m : Nat) (acc : GoString) (h : m < fuel) :
    encodeLoop fuel (m : Int) acc = Run.done (token m ++ acc) := by
  induction fuel generalizing m acc with
  | zero => omega
  | succ fuel ih =>
    unfold encodeLoop
    by_cases hm : m = 0
    · subst hm
      simp [token]
    · have hpos : (m : Int) > 0 := by omega
      have h26 : m % 26 < 26 := Nat.mod_lt _ (by norm_num)
      have hdiv : m / 26 < fuel := by
        have : m / 26 < m := Nat.div_lt_self (by omega) (by norm_num)
        omega
      have hdig : Nat.digits 26 m = (m % 26) :: Nat.digits 26 (m / 26) :=
        Nat.digits_def' (by norm_num) (by omega)
      simp only [hpos, if_true, alphabet_length]
      have e1 : (m : Int).tmod ((26 : Nat) : Int) = ((m % 26 : Nat) : Int) :=
        (Int.ofNat_tmod m 26).symm
      have e2 : (m : Int).tdiv ((26 : Nat) : Int) = ((m / 26 : Nat) : Int) :=
        (Int.ofNat_tdiv m 26).symm
      rw [e1, e2, slice_alphabet _ h26]
      simp only
      rw [ih _ _ hdiv]
      simp [token, hdig]

theorem encodeLoop_nonpos (fuel : Nat) (n : Int) (acc : GoString) (h : n ≤ 0) :
    encodeLoop (fuel + 1) n acc = Run.done acc := by
  unfold encodeLoop
  have : ¬ n > 0 := by omega
  simp [this]

/-- With any budget above `n.toNat` the loop ends, with the letters of the base-26 digits
of `n` put in front of the accumulator. -/
theorem encodeLoop_eq (fuel : Nat) (n : Int) (acc : GoString) (h : n.toNat < fuel) :
    encodeLoop fuel n acc = Run.done (token n.toNat ++ acc) := by
  by_cases hn : 0 ≤ n
  · obtain ⟨m, rfl⟩ := Int.eq_ofNat_of_zero_le hn
    simpa using encodeLoop_nat fuel m acc (by simpa using h)
  · have h0 : n.toNat = 0 := by omega
    obtain ⟨k, rfl⟩ : ∃ k, fuel = k + 1 := ⟨fuel - 1, by omega⟩
    rw [encodeLoop_nonpos k n acc (by omega), h0]
    simp [token]

theorem encode_eq (n : Int) : encode n = Run.done (token n.toNat) := by
  unfold encode
  rw [encodeLoop_eq _ _ _ (Nat.lt_succ_self _)]
  simp

theorem unletter_letter (d : Nat) (h : d < 26) : unletter (letter d) = d := by
  have key : ∀ i : Fin 26, unletter (letter i.val) = i.val := by decide
  exact key ⟨d, h⟩

theorem token_injective {a b : Nat} (h : token a = token b) : a = b := by
  have hmap : ∀ n : Nat, (token n).map unletter = (Nat.digits 26 n).reverse := by
    intro n
    unfold token
    rw [List.map_map]
    conv_rhs => rw [← List.map_id (Nat.digits 26 n).reverse]
    apply List.map_congr_left
    intro d hd
    have : d < 26 := Nat.digits_lt_base (by norm_num) (List.mem_reverse.mp hd)
    simpa using unletter_letter d this
  have h2 : (Nat.digits 26 a).reverse = (Nat.digits 26 b).reverse := by
    rw [← hmap a, ← hmap b, h]
  exact Nat.digits_inj_iff.mp (List.reverse_injective h2)

/-! ### CRLF lemmas -/

theorem foldl_crlfStep (s : GoString) (acc : GoString) :
    s.foldl crlfStep acc = acc ++ s.foldl crlfStep [] := by
  induction s generalizing acc with
  | nil => simp
  | cons c s ih =>
    rw [List.foldl_cons, ih, List.foldl_cons, ih (crlfStep [] c)]
    unfold crlfStep
    split_ifs <;> simp

theorem toCRLF_nil : toCRLF [] = [] := rfl

theorem toCRLF_cons (c : Byte) (s : GoString) :
    toCRLF (c :: s) = crlfStep [] c ++ toCRLF s := by
  unfold toCRLF
  rw [List.foldl_cons, foldl_crlfStep]

theorem getLast?_cons_of_some {a x : Byte} {l : GoString} (h : l.getLast? = some x) :
    (a :: l).getLast? = some x := by
  simp [List.getLast?_cons, h]

theorem getLast?_of_cons {a x : Byte} {l : GoString} (h : (a :: l).getLast? = some x)
    (hne : a ≠ x) : l.getLast? = some x := by
  cases l with
  | nil => simp at h; exact absurd h hne
  | cons b l => simpa [List.getLast?_cons_cons] using h

theorem allCRLF_nil : AllCRLF [] := by
  constructor <;> intro pre post h <;> simp at h

theorem allCRLF_cons_other {c : Byte} {s : GoString} (h10 : c ≠ 10) (h13 : c ≠ 13) :
    AllCRLF (c :: s) ↔ AllCRLF s := by
  constructor
  · rintro ⟨h1, h2⟩
    refine ⟨fun pre post e => ?_, fun pre post e => ?_⟩
    · exact getLast?_of_cons (h1 (c :: pre) post (by simp [e])) h13
    · exact h2 (c :: pre) post (by simp [e])
  · rintro ⟨h1, h2⟩
    refine ⟨fun pre post e => ?_, fun pre post e => ?_⟩
    · rcases List.cons_eq_append_iff.mp e with ⟨_, e'⟩ | ⟨pre', rfl, e'⟩
      · simp at e'; exact absurd e'.1.symm h10
      · exact getLast?_cons_of_some (h1 pre' post e')
    · rcases List.cons_eq_append_iff.mp e with ⟨_, e'⟩ | ⟨pre', rfl, e'⟩
      · simp at e'; exact absurd e'.1.symm h13
      · exact h2 pre' post e'

theorem allCRLF_cons_crlf {s : GoString} : AllCRLF (13 :: 10 :: s) ↔ AllCRLF s := by
  constructor
  · rintro ⟨h1, h2⟩
    refine ⟨fun pre post e => ?_, fun pre post e => ?_⟩
    · have := h1 (13 :: 10 :: pre) post (by simp [e])
      rw [List.getLast?_cons_cons] at this
      exact getLast?_of_cons this (by decide)
    · exact h2 (13 :: 10 :: pre) post (by simp [e])
  · rintro ⟨h1, h2⟩
    refine ⟨fun pre post e => ?_, fun pre post e => ?_⟩
    · rcases List.cons_eq_append_iff.mp e with ⟨_, e'⟩ | ⟨pre', rfl, e'⟩
      · simp at e'
      · rcases List.cons_eq_append_iff.mp e' with ⟨rfl, _⟩ | ⟨pre'', rfl, e''⟩
        · rfl
        · exact getLast?_cons_of_some (getLast?_cons_of_some (h1 pre'' post e''))
    · rcases List.cons_eq_append_iff.mp e with ⟨_, e'⟩ | ⟨pre', rfl, e'⟩
      · simp at e'; subst e'; rfl
      · rcases List.cons_eq_append_iff.mp e' with ⟨_, e''⟩ | ⟨pre'', rfl, e''⟩
        · simp at e''
        · exact h2 pre'' post e''

theorem not_allCRLF_lf {s : GoString} : ¬ AllCRLF (10 :: s) := by
  rintro ⟨h1, _⟩
  have := h1 [] s rfl
  simp at this

theorem allCRLF_cr {s : GoString} (h : AllCRLF (13 :: s)) : ∃ s', s = 10 :: s' := by
  have := h.2 [] s rfl
  cases s with
  | nil => simp at this
  | cons d s => simp at this; exact ⟨s, by rw [this]⟩

theorem isCRLF_iff (s : GoString) : isCRLF s = true ↔ AllCRLF s := by
  induction s using isCRLF.induct with
  | case1 => simp [isCRLF, allCRLF_nil]
  | case2 c =>
    by_cases h13 : c = 13
    · subst h13
      simp only [isCRLF]
      constructor
      · intro h; simp at h
      · intro h; obtain ⟨s', hs⟩ := allCRLF_cr h; simp at hs
    · by_cases h10 : c = 10
      · subst h10
        simp only [isCRLF]
        constructor
        · intro h; simp at h
        · intro h; exact absurd h not_allCRLF_lf
      · rw [allCRLF_cons_other h10 h13]
        simp [isCRLF, h13, h10, allCRLF_nil]
  | case3 d rest ih =>
    simp only [isCRLF, if_true, Bool.and_eq_true, decide_eq_true_eq]
    constructor
    · rintro ⟨rfl, h⟩
      exact allCRLF_cons_crlf.mpr (ih.mp h)
    · intro h
      obtain ⟨s', hs⟩ := allCRLF_cr h
      simp at hs
      obtain ⟨rfl, rfl⟩ := hs
      exact ⟨rfl, ih.mpr (allCRLF_cons_crlf.mp h)⟩
  | case4 d rest _ =>
    simp only [isCRLF]
    constructor
    · intro h; simp at h
    · intro h; exact absurd h not_allCRLF_lf
  | case5 c d rest h13 h10 ih =>
    rw [allCRLF_cons_other h10 h13, ← ih]
    simp [isCRLF, h13, h10]

theorem isCRLF_toCRLF (s : GoString) : isCRLF (toCRLF s) = true := by
  induction s with
  | nil => rfl
  | cons c s ih =>
    rw [toCRLF_cons]
    unfold crlfStep
    by_cases h10 : c = 10
    · simp only [h10, if_true, List.nil_append, List.cons_append]
      rw [isCRLF_iff, allCRLF_cons_crlf, ← isCRLF_iff]; exact ih
    · by_cases h13 : c = 13
      · simp [h13, ih]
      · simp only [h10, h13, if_false, List.nil_append, List.cons_append, List.singleton_append]
        rw [isCRLF_iff, allCRLF_cons_other h10 h13, ← isCRLF_iff]; exact ih

theorem toCRLF_of_isCRLF (s : GoString) (h : isCRLF s = true) : toCRLF s = s := by
  induction s using isCRLF.induct with
  | case1 => rfl
  | case2 c =>
    simp [isCRLF] at h
    simp [toCRLF, crlfStep, h.1, h.2]
  | case3 d rest ih =>
    simp [isCRLF] at h
    obtain ⟨rfl, h⟩ := h
    rw [toCRLF_cons, toCRLF_cons, ih h]
    simp [crlfStep]
  | case4 d rest _ => simp [isCRLF] at h
  | case5 c d rest h13 h10 ih =>
    simp [isCRLF, h13, h10] at h
    rw [toCRLF_cons, ih h]
    simp [crlfStep, h13, h10]

theorem getLast?_eq_some_append {x : Byte} {l : GoString} (h : l.getLast? = some x) :
    ∃ l', l = l' ++ [x] := by
  rcases List.eq_nil_or_concat l with rfl | ⟨l', b, rfl⟩
  · simp at h
  · rw [List.concat_eq_append, List.getLast?_concat] at h
    simp at h
    exact ⟨l', by rw [List.concat_eq_append, h]⟩

/-- In a sequence whose line endings are all CRLF, the byte two places before a line feed is
not a carriage return. -/
theorem allCRLF_single_cr {s : GoString} (h : AllCRLF s) (pre post : GoString)
    (e : s = pre ++ 10 :: post) : pre.dropLast.getLast? ≠ some 13 := by
  intro hcr
  obtain ⟨p1, hp1⟩ := getLast?_eq_some_append (h.1 pre post e)
  rw [hp1, List.dropLast_concat] at hcr
  obtain ⟨p2, hp2⟩ := getLast?_eq_some_append hcr
  have := h.2 p2 (13 :: 10 :: post) (by rw [e, hp1, hp2]; simp)
  simp at this

theorem allCRLF_no_crcrlf {s : GoString} (h : AllCRLF s) : ¬ [13, 13, 10] <:+: s := by
  rintro ⟨a, b, e⟩
  have := h.2 a (13 :: 10 :: b) (by rw [← e]; simp)
  simp at this

theorem tokenLetters (n : Nat) : ∀ b ∈ token n, (97 : Byte) ≤ b ∧ b ≤ 122 := by
  intro b hb
  unfold token at hb
  obtain ⟨d, hd, rfl⟩ := List.mem_map.mp hb
  have hlt : d < 26 := Nat.digits_lt_base (by norm_num) (List.mem_reverse.mp hd)
  have key : ∀ i : Fin 26, (97 : Byte) ≤ letter i.val ∧ letter i.val ≤ 122 := by decide
  exact key ⟨d, hlt⟩

theorem token_ne_nil {n : Nat} (h : n ≠ 0) : token n ≠ [] := by
  unfold token
  simpa using Nat.digits_ne_nil_iff_ne_zero.mpr h

theorem token_head {n : Nat} (h : n ≠ 0) : (token n).head? ≠ some 97 := by
  unfold token
  have hne : Nat.digits 26 n ≠ [] := Nat.digits_ne_nil_iff_ne_zero.mpr h
  have hlast := Nat.getLast_digit_ne_zero 26 h
  have hmem : (Nat.digits 26 n).getLast hne ∈ Nat.digits 26 n := List.getLast_mem hne
  have hlt : (Nat.digits 26 n).getLast hne < 26 := Nat.digits_lt_base (by norm_num) hmem
  rw [List.head?_map, List.head?_reverse, List.getLast?_eq_getLast _ hne]
  have key : ∀ i : Fin 26, i.val ≠ 0 → letter i.val ≠ 97 := by decide
  simpa using key ⟨_, hlt⟩ hlast

/-! ### Parameter lemmas -/

theorem Values.get_put (v : Values) (k k' : GoString) (vs : List GoString) :
    (v.put k vs).get k' = if k = k' then some vs else v.get k' := by
  induction v with
  | nil => simp [Values.put, Values.get]
  | cons e v ih =>
    obtain ⟨a, b⟩ := e
    by_cases h : a = k
    · subst h
      by_cases h' : a = k' <;> simp [Values.put, Values.get, h']
    · by_cases h' : a = k'
      · subst h'
        simp [Values.put, Values.get, h, Ne.symm h]
      · simp [Values.put, Values.get, h, h', ih]

theorem Values.has_add_self (p : Values) (k x : GoString) : (p.Add k x).Has k x := by
  refine ⟨(p.get k).getD [] ++ [x], ?_, by simp⟩
  simp [Values.Add, Values.get_put]

theorem Values.has_add_of_has {p : Values} {k x : GoString} (k' x' : GoString)
    (h : p.Has k x) : (p.Add k' x').Has k x := by
  obtain ⟨vs, hget, hx⟩ := h
  by_cases e : k' = k
  · subst e
    refine ⟨vs ++ [x'], ?_, by simp [hx]⟩
    simp [Values.Add, Values.get_put, hget]
  · exact ⟨vs, by simp [Values.Add, Values.get_put, e, hget], hx⟩

theorem cut_eq_none {sep : Byte} {s : GoString} (h : sep ∉ s) : cut sep s = none := by
  induction s with
  | nil => rfl
  | cons c s ih =>
    simp only [List.mem_cons, not_or] at h
    simp [cut, Ne.symm h.1, ih h.2]

theorem cut_eq_some {sep : Byte} {s : GoString} (h : sep ∈ s) :
    cut sep s = some (s.takeWhile (fun c => c ≠ sep), (s.dropWhile (fun c => c ≠ sep)).drop 1) := by
  induction s with
  | nil => simp at h
  | cons c s ih =>
    by_cases hc : c = sep
    · subst hc
      simp [cut, List.takeWhile, List.dropWhile]
    · have hs : sep ∈ s := by
        rcases List.mem_cons.mp h with e | e
        · exact absurd e.symm hc
        · exact e
      simp [cut, hc, ih hs, List.takeWhile, List.dropWhile]

theorem keyOf_of_not_mem {v : GoString} (h : (61 : Byte) ∉ v) : keyOf v = v ∧ valueOf v = [] := by
  constructor
  · unfold keyOf
    rw [List.takeWhile_eq_self_iff]
    intro c hc
    simp
    rintro rfl
    exact h hc
  · unfold valueOf
    have : v.dropWhile (fun c => c ≠ 61) = [] := by
      rw [List.dropWhile_eq_nil_iff]
      intro c hc
      simp
      rintro rfl
      exact h hc
    rw [this]; rfl

theorem addArg_eq (p : Values) (v : GoString) :
    addArg p v = some (p.Add (keyOf v) (valueOf v)) := by
  by_cases h : (61 : Byte) ∈ v
  · simp [addArg, splitN2, cut_eq_some h, keyOf, valueOf]
  · obtain ⟨hk, hv⟩ := keyOf_of_not_mem h
    simp [addArg, splitN2, cut_eq_none h, hk, hv]

theorem foldlM_addArg (args : List GoString) (p : Values) :
    ∃ q, args.foldlM addArg p = some q ∧ (∀ k x, p.Has k x → q.Has k x) ∧
      ∀ v ∈ args, q.Has (keyOf v) (valueOf v) := by
  induction args generalizing p with
  | nil => exact ⟨p, rfl, fun _ _ h => h, by simp⟩
  | cons a args ih =>
    obtain ⟨q, hq, hmono, hall⟩ := ih (p.Add (keyOf a) (valueOf a))
    refine ⟨q, by simp [List.foldlM_cons, addArg_eq, hq], ?_, ?_⟩
    · intro k x h
      exact hmono k x (Values.has_add_of_has _ _ h)
    · intro v hv
      rcases List.mem_cons.mp hv with rfl | hv
      · exact hmono _ _ (Values.has_add_self _ _ _)
      · exact hall v hv

/-! ### Handler lemmas -/

theorem le_or_left (a b : Nat) : a ≤ a ||| b :=
  Nat.le_of_testBit (fun i h => by simp [h])

theorem le_or_right (a b : Nat) : b ≤ a ||| b :=
  Nat.le_of_testBit (fun i h => by simp [h])

theorem first_cases (b : Byte) :
    (first b = 0xF0 ∧ b.val < 0x80) ∨ first b = 0xF1 ∨
    (first b = 0x02 ∧ 2 ≤ b.val &&& 0x1F) ∨ first b = 0x13 ∨
    (first b = 0x03 ∧ 1 ≤ b.val &&& 0x0F) ∨ (first b = 0x23 ∧ 1 ≤ b.val &&& 0x0F) ∨
    first b = 0x34 ∨ (first b = 0x04 ∧ 1 ≤ b.val &&& 0x07) ∨
    (first b = 0x44 ∧ 1 ≤ b.val &&& 0x07) := by
  revert b
  decide

theorem and63_ge_32 (b : Byte) (h : ¬ b.val < 0xA0) (h' : ¬ 0xBF < b.val) : 0x20 ≤ b.val &&& 0x3F := by
  revert b
  decide

theorem and63_ge_16 (b : Byte) (h : ¬ b.val < 0x90) (h' : ¬ 0xBF < b.val) : 0x10 ≤ b.val &&& 0x3F := by
  revert b
  decide

/-- What `DecodeRuneInString` returns on a non-empty string: an error of width one, the
ASCII first byte, or a rune of at least 0x80 that is two to four bytes of the string. -/
theorem decode_spec (s : GoString) (h : s ≠ []) :
    ((DecodeRuneInString s).2 = 1 ∧ (DecodeRuneInString s).1 = RuneError) ∨
    ((DecodeRuneInString s).2 = 1 ∧ (DecodeRuneInString s).1 = (s.getD 0 0).val ∧
      (s.getD 0 0).val < 0x80) ∨
    (2 ≤ (DecodeRuneInString s).2 ∧ (DecodeRuneInString s).2 ≤ s.length ∧
      0x80 ≤ (DecodeRuneInString s).1) := by
  have hlen : 1 ≤ s.length := by
    cases s with
    | nil => exact absurd rfl h
    | cons c s => simp
  unfold DecodeRuneInString
  simp only [show ¬ s.length < 1 by omega, if_false]
  generalize s.getD 0 0 = s0
  generalize s.getD 1 0 = s1
  generalize s.getD 2 0 = s2
  generalize s.getD 3 0 = s3
  generalize s.length = n
  have e2 : (2 &&& 7 : Nat) = 2 := by decide
  have e19 : (19 &&& 7 : Nat) = 3 := by decide
  have e3 : (3 &&& 7 : Nat) = 3 := by decide
  have e35 : (35 &&& 7 : Nat) = 3 := by decide
  have e52 : (52 &&& 7 : Nat) = 4 := by decide
  have e4 : (4 &&& 7 : Nat) = 4 := by decide
  have e68 : (68 &&& 7 : Nat) = 4 := by decide
  rcases first_cases s0 with h1 | h1 | h1 | h1 | h1 | h1 | h1 | h1 | h1
  · obtain ⟨h1, h2⟩ := h1
    simp +decide [h1, h2]
  · simp +decide [h1, RuneError]
  · obtain ⟨h1, h2⟩ := h1
    simp +decide only [h1, acceptRanges, e2]
    split_ifs
    all_goals first
      | exact Or.inl ⟨rfl, rfl⟩
      | refine Or.inr (Or.inr ⟨by simp, by simp only; omega, ?_⟩)
    calc 0x80 ≤ (s0.val &&& 0x1F) <<< 6 := by
          rw [Nat.shiftLeft_eq]; omega
      _ ≤ _ := le_or_left _ _
  · simp +decide only [h1, acceptRanges, e19]
    split_ifs
    all_goals first
      | exact Or.inl ⟨rfl, rfl⟩
      | refine Or.inr (Or.inr ⟨by simp, by simp only; omega, ?_⟩)
    rename_i hn hs1 hs2
    have := and63_ge_32 s1 (by simp at hs1; omega) (by simp at hs1; omega)
    calc 0x80 ≤ (s1.val &&& 0x3F) <<< 6 := by
          rw [Nat.shiftLeft_eq]; omega
      _ ≤ (s0.val &&& 0x0F) <<< 12 ||| (s1.val &&& 0x3F) <<< 6 := le_or_right _ _
      _ ≤ _ := le_or_left _ _
  · obtain ⟨h1, h2⟩ := h1
    simp +decide only [h1, acceptRanges, e3]
    split_ifs
    all_goals first
      | exact Or.inl ⟨rfl, rfl⟩
      | refine Or.inr (Or.inr ⟨by simp, by simp only; omega, ?_⟩)
    calc 0x80 ≤ (s0.val &&& 0x0F) <<< 12 := by
          rw [Nat.shiftLeft_eq]; omega
      _ ≤ (s0.val &&& 0x0F) <<< 12 ||| (s1.val &&& 0x3F) <<< 6 := le_or_left _ _
      _ ≤ _ := le_or_left _ _
  · obtain ⟨h1, h2⟩ := h1
    simp +decide only [h1, acceptRanges, e35]
    split_ifs
    all_goals first
      | exact Or.inl ⟨rfl, rfl⟩
      | refine Or.inr (Or.inr ⟨by simp, by simp only; omega, ?_⟩)
    calc 0x80 ≤ (s0.val &&& 0x0F) <<< 12 := by
          rw [Nat.shiftLeft_eq]; omega
      _ ≤ (s0.val &&& 0x0F) <<< 12 ||| (s1.val &&& 0x3F) <<< 6 := le_or_left _ _
      _ ≤ _ := le_or_left _ _
  · simp +decide only [h1, acceptRanges, e52]
    split_ifs
    all_goals first
      | exact Or.inl ⟨rfl, rfl⟩
      | refine Or.inr (Or.inr ⟨by simp, by simp only; omega, ?_⟩)
    rename_i hn hs1 hs2 hs3
    have := and63_ge_16 s1 (by simp at hs1; omega) (by simp at hs1; omega)
    calc 0x80 ≤ (s1.val &&& 0x3F) <<< 12 := by
          rw [Nat.shiftLeft_eq]; omega
      _ ≤ (s0.val &&& 0x07) <<< 18 ||| (s1.val &&& 0x3F) <<< 12 := le_or_right _ _
      _ ≤ (s0.val &&& 0x07) <<< 18 ||| (s1.val &&& 0x3F) <<< 12 ||| (s2.val &&& 0x3F) <<< 6 :=
          le_or_left _ _
      _ ≤ _ := le_or_left _ _
  · obtain ⟨h1, h2⟩ := h1
    simp +decide only [h1, acceptRanges, e4]
    split_ifs
    all_goals first
      | exact Or.inl ⟨rfl, rfl⟩
      | refine Or.inr (Or.inr ⟨by simp, by simp only; omega, ?_⟩)
    calc 0x80 ≤ (s0.val &&& 0x07) <<< 18 := by
          rw [Nat.shiftLeft_eq]; omega
      _ ≤ (s0.val &&& 0x07) <<< 18 ||| (s1.val &&& 0x3F) <<< 12 := le_or_left _ _
      _ ≤ (s0.val &&& 0x07) <<< 18 ||| (s1.val &&& 0x3F) <<< 12 ||| (s2.val &&& 0x3F) <<< 6 :=
          le_or_left _ _
      _ ≤ _ := le_or_left _ _
  · obtain ⟨h1, h2⟩ := h1
    simp +decide only [h1, acceptRanges, e68]
    split_ifs
    all_goals first
      | exact Or.inl ⟨rfl, rfl⟩
      | refine Or.inr (Or.inr ⟨by simp, by simp only; omega, ?_⟩)
    calc 0x80 ≤ (s0.val &&& 0x07) <<< 18 := by
          rw [Nat.shiftLeft_eq]; omega
      _ ≤ (s0.val &&& 0x07) <<< 18 ||| (s1.val &&& 0x3F) <<< 12 := le_or_left _ _
      _ ≤ (s0.val &&& 0x07) <<< 18 ||| (s1.val &&& 0x3F) <<< 12 ||| (s2.val &&& 0x3F) <<< 6 :=
          le_or_left _ _
      _ ≤ _ := le_or_left _ _

theorem noMarkup_nil : NoMarkup [] := by
  refine ⟨by simp, by simp, fun pre post h => ?_⟩
  simp at h

theorem noMarkup_cons_iff (c : Byte) (t : GoString) :
    NoMarkup (c :: t) ↔
      c ≠ 60 ∧ c ≠ 62 ∧ (c = 38 → ∃ e ∈ entities, e <+: c :: t) ∧ NoMarkup t := by
  constructor
  · rintro ⟨h1, h2, h3⟩
    refine ⟨fun e => h1 (by simp [e]), fun e => h2 (by simp [e]), ?_, ?_, ?_, ?_⟩
    · rintro rfl
      exact h3 [] t rfl
    · exact fun h => h1 (List.mem_cons_of_mem _ h)
    · exact fun h => h2 (List.mem_cons_of_mem _ h)
    · intro pre post e
      exact h3 (c :: pre) post (by simp [e])
  · rintro ⟨h1, h2, h3, h4, h5, h6⟩
    refine ⟨?_, ?_, ?_⟩
    · simp only [List.mem_cons, not_or]
      exact ⟨fun e => h1 e.symm, h4⟩
    · simp only [List.mem_cons, not_or]
      exact ⟨fun e => h2 e.symm, h5⟩
    · intro pre post e
      rcases List.cons_eq_append_iff.mp e with ⟨rfl, e'⟩ | ⟨pre', rfl, e'⟩
      · simp at e'
        obtain ⟨rfl, rfl⟩ := e'
        exact h3 rfl
      · exact h6 pre' post e'

theorem noMarkup_append_clean {a t : GoString} (ha : Clean a) (ht : NoMarkup t) :
    NoMarkup (a ++ t) := by
  induction a with
  | nil => simpa using ht
  | cons c a ih =>
    have hc := ha c (by simp)
    rw [List.cons_append, noMarkup_cons_iff]
    exact ⟨hc.2.1, hc.2.2, fun e => absurd e hc.1,
      ih (fun b hb => ha b (List.mem_cons_of_mem _ hb))⟩

theorem noMarkup_append_right {t a : GoString} (ht : NoMarkup t) (ha : Clean a) :
    NoMarkup (t ++ a) := by
  induction t with
  | nil => simpa using noMarkup_append_clean ha noMarkup_nil
  | cons c t ih =>
    rw [noMarkup_cons_iff] at ht
    obtain ⟨h1, h2, h3, h4⟩ := ht
    rw [List.cons_append, noMarkup_cons_iff]
    refine ⟨h1, h2, fun e => ?_, ih h4⟩
    obtain ⟨e', he', hp⟩ := h3 e
    exact ⟨e', he', hp.trans (by simp)⟩

theorem noMarkup_drop {t : GoString} (n : Nat) (ht : NoMarkup t) : NoMarkup (t.drop n) := by
  induction n generalizing t with
  | zero => simpa using ht
  | succ n ih =>
    cases t with
    | nil => simpa using ht
    | cons c t =>
      rw [List.drop_succ_cons]
      exact ih ((noMarkup_cons_iff c t).mp ht).2.2.2


theorem entity_shape {e : GoString} (he : e ∈ entities) :
    ∃ tail, e = 38 :: tail ∧ Clean tail ∧ ∀ b ∈ tail, Plain b := by
  simp only [entities, List.mem_cons, List.mem_singleton, List.not_mem_nil, or_false] at he
  rcases he with rfl | rfl | rfl | rfl | rfl
  · exact ⟨lit "amp;", by decide, by unfold Clean; decide, by unfold Plain; decide⟩
  · exact ⟨lit "#39;", by decide, by unfold Clean; decide, by unfold Plain; decide⟩
  · exact ⟨lit "lt;", by decide, by unfold Clean; decide, by unfold Plain; decide⟩
  · exact ⟨lit "gt;", by decide, by unfold Clean; decide, by unfold Plain; decide⟩
  · exact ⟨lit "#34;", by decide, by unfold Clean; decide, by unfold Plain; decide⟩

theorem noMarkup_entity_append {e t : GoString} (he : e ∈ entities) (ht : NoMarkup t) :
    NoMarkup (e ++ t) := by
  obtain ⟨tail, rfl, hclean, -⟩ := entity_shape he
  rw [List.cons_append, noMarkup_cons_iff]
  refine ⟨by decide, by decide, fun _ => ⟨_, he, ?_⟩, noMarkup_append_clean hclean ht⟩
  simp

theorem htmlReplacement_cases (c : Byte) :
    (htmlReplacement c = [c] ∧ c ≠ 38 ∧ c ≠ 60 ∧ c ≠ 62) ∨ htmlReplacement c ∈ entities := by
  unfold htmlReplacement
  by_cases h38 : c = 38
  · right; simp [h38, entities]
  by_cases h39 : c = 39
  · right; simp +decide [h39, entities]
  by_cases h60 : c = 60
  · right; simp +decide [h60, entities]
  by_cases h62 : c = 62
  · right; simp +decide [h62, entities]
  by_cases h34 : c = 34
  · right; simp +decide [h34, entities]
  left
  simp [h38, h39, h60, h62, h34]

/-- The output of `html.EscapeString` has no `<`, no `>`, and `&` only at the start of a
character reference. -/
theorem noMarkup_EscapeString (s : GoString) : NoMarkup (EscapeString s) := by
  induction s with
  | nil => exact noMarkup_nil
  | cons c s ih =>
    unfold EscapeString
    rcases htmlReplacement_cases c with ⟨h, h38, h60, h62⟩ | h
    · rw [h]
      exact noMarkup_append_clean (by intro b hb; simp at hb; subst hb; exact ⟨h38, h60, h62⟩) ih
    · exact noMarkup_entity_append h ih


theorem lowerhexAt_clean (i : Nat) :
    lowerhexAt i ≠ 38 ∧ lowerhexAt i ≠ 60 ∧ lowerhexAt i ≠ 62 := by
  by_cases h : i < 16
  · have key : ∀ j : Fin 16,
        lowerhexAt j.val ≠ 38 ∧ lowerhexAt j.val ≠ 60 ∧ lowerhexAt j.val ≠ 62 := by decide
    exact key ⟨i, h⟩
  · have : lowerhexAt i = 0 := by
      unfold lowerhexAt
      rw [List.getD_eq_default]
      have : lowerhex.length = 16 := by decide
      omega
    rw [this]
    decide

theorem appendHex_eq (buf : GoString) (r n : Nat) :
    appendHex buf r n = buf ++ appendHex [] r n := by
  induction n generalizing buf with
  | zero => simp [appendHex]
  | succ n ih =>
    unfold appendHex
    rw [ih, ih ([] ++ _)]
    simp

theorem clean_append {a b : GoString} (ha : Clean a) (hb : Clean b) : Clean (a ++ b) := by
  intro x hx
  rcases List.mem_append.mp hx with h | h
  · exact ha x h
  · exact hb x h

theorem clean_appendHex (r n : Nat) : Clean (appendHex [] r n) := by
  induction n with
  | zero => intro b hb; simp [appendHex] at hb
  | succ n ih =>
    unfold appendHex
    rw [appendHex_eq]
    refine clean_append ?_ ih
    intro b hb
    simp at hb
    subst hb
    exact lowerhexAt_clean _

theorem or_clean (x : Byte) :
    (((0x80 : Byte) ||| x) ≠ 38 ∧ ((0x80 : Byte) ||| x) ≠ 60 ∧ ((0x80 : Byte) ||| x) ≠ 62) ∧
    (((0xC0 : Byte) ||| x) ≠ 38 ∧ ((0xC0 : Byte) ||| x) ≠ 60 ∧ ((0xC0 : Byte) ||| x) ≠ 62) ∧
    (((0xE0 : Byte) ||| x) ≠ 38 ∧ ((0xE0 : Byte) ||| x) ≠ 60 ∧ ((0xE0 : Byte) ||| x) ≠ 62) ∧
    (((0xF0 : Byte) ||| x) ≠ 38 ∧ ((0xF0 : Byte) ||| x) ≠ 60 ∧ ((0xF0 : Byte) ||| x) ≠ 62) := by
  revert x
  decide

theorem AppendRune_eq (p : GoString) (r : Nat) : AppendRune p r = p ++ AppendRune [] r := by
  unfold AppendRune
  split_ifs <;> simp

theorem byteOf_val {r : Nat} (h : r < 256) : (byteOf r).val = r := by
  unfold byteOf
  simp [Fin.ofNat, Nat.mod_eq_of_lt h]

theorem byteOf_clean {r : Nat} (h : r < 256) (h38 : r ≠ 38) (h60 : r ≠ 60) (h62 : r ≠ 62) :
    byteOf r ≠ 38 ∧ byteOf r ≠ 60 ∧ byteOf r ≠ 62 := by
  have hv := byteOf_val h
  refine ⟨fun e => h38 ?_, fun e => h60 ?_, fun e => h62 ?_⟩ <;>
    · rw [e] at hv
      simpa using hv.symm

theorem clean_AppendRune {r : Nat} (h38 : r ≠ 38) (h60 : r ≠ 60) (h62 : r ≠ 62) :
    Clean (AppendRune [] r) := by
  unfold AppendRune
  split_ifs with h1 h2 h3 h4
  · intro b hb
    simp at hb
    subst hb
    exact byteOf_clean (by omega) h38 h60 h62
  all_goals
    intro b hb
    simp only [List.nil_append, List.mem_cons, List.mem_singleton, List.not_mem_nil,
      or_false] at hb
    rcases hb with rfl | rfl | rfl | rfl <;> first
      | exact (or_clean _).1
      | exact (or_clean _).2.1
      | exact (or_clean _).2.2.1
      | exact (or_clean _).2.2.2


theorem clean_lit_escape :
    Clean (lit "\\a") ∧ Clean (lit "\\b") ∧ Clean (lit "\\f") ∧ Clean (lit "\\n") ∧
    Clean (lit "\\r") ∧ Clean (lit "\\t") ∧ Clean (lit "\\v") ∧ Clean (lit "\\x") ∧
    Clean (lit "\\u") ∧ Clean (lit "\\U") ∧ Clean [92, 34] ∧ Clean [92, 92] := by
  refine ⟨?_, ?_, ?_, ?_, ?_, ?_, ?_, ?_, ?_, ?_, ?_, ?_⟩ <;>
    · unfold Clean
      decide

/-- What `appendEscapedRune` appends does not depend on the buffer, and has no `&`, `<` or
`>` unless the rune is one of them. -/
theorem appendEscapedRune_chunk (table : Nat → Bool) (r : Nat) :
    ∃ chunk, (∀ buf, appendEscapedRune table buf r = buf ++ chunk) ∧
      (r ≠ 38 → r ≠ 60 → r ≠ 62 → Clean chunk) := by
  obtain ⟨ca, cb, cf, cn, cr, ct, cv, cx, cu, cU, cq, cbs⟩ := clean_lit_escape
  unfold appendEscapedRune
  by_cases h1 : r = 34 ∨ r = 92
  · refine ⟨[92, byteOf r], fun buf => by rw [if_pos h1], fun _ _ _ => ?_⟩
    rcases h1 with rfl | rfl
    · exact cq
    · exact cbs
  by_cases h2 : IsPrint table r = true
  · refine ⟨AppendRune [] r, fun buf => by rw [if_neg h1, if_pos h2, AppendRune_eq],
      fun h38 h60 h62 => clean_AppendRune h38 h60 h62⟩
  by_cases h7 : r = 7
  · exact ⟨_, fun buf => by rw [if_neg h1, if_neg h2, if_pos h7], fun _ _ _ => ca⟩
  by_cases h8 : r = 8
  · exact ⟨_, fun buf => by rw [if_neg h1, if_neg h2, if_neg h7, if_pos h8], fun _ _ _ => cb⟩
  by_cases h12 : r = 12
  · exact ⟨_, fun buf => by rw [if_neg h1, if_neg h2, if_neg h7, if_neg h8, if_pos h12],
      fun _ _ _ => cf⟩
  by_cases h10 : r = 10
  · exact ⟨_, fun buf => by
      rw [if_neg h1, if_neg h2, if_neg h7, if_neg h8, if_neg h12, if_pos h10], fun _ _ _ => cn⟩
  by_cases h13 : r = 13
  · exact ⟨_, fun buf => by
      rw [if_neg h1, if_neg h2, if_neg h7, if_neg h8, if_neg h12, if_neg h10, if_pos h13],
      fun _ _ _ => cr⟩
  by_cases h9 : r = 9
  · exact ⟨_, fun buf => by
      rw [if_neg h1, if_neg h2, if_neg h7, if_neg h8, if_neg h12, if_neg h10, if_neg h13,
        if_pos h9], fun _ _ _ => ct⟩
  by_cases h11 : r = 11
  · exact ⟨_, fun buf => by
      rw [if_neg h1, if_neg h2, if_neg h7, if_neg h8, if_neg h12, if_neg h10, if_neg h13,
        if_neg h9, if_pos h11], fun _ _ _ => cv⟩
  by_cases hx : r < 32 ∨ r = 0x7F
  · refine ⟨lit "\\x" ++ [lowerhexAt (byteOf r >>> 4).val, lowerhexAt (byteOf r &&& 0xF).val],
      fun buf => by
        rw [if_neg h1, if_neg h2, if_neg h7, if_neg h8, if_neg h12, if_neg h10, if_neg h13,
          if_neg h9, if_neg h11, if_pos hx, List.append_assoc], fun _ _ _ => ?_⟩
    refine clean_append cx ?_
    intro b hb
    simp only [List.mem_cons, List.mem_singleton, List.not_mem_nil, or_false] at hb
    rcases hb with rfl | rfl <;> exact lowerhexAt_clean _
  by_cases hv : (!ValidRune r) = true
  · refine ⟨lit "\\u" ++ appendHex [] RuneError 4, fun buf => by
        rw [if_neg h1, if_neg h2, if_neg h7, if_neg h8, if_neg h12, if_neg h10, if_neg h13,
          if_neg h9, if_neg h11, if_neg hx, if_pos hv, appendHex_eq, List.append_assoc],
      fun _ _ _ => clean_append cu (clean_appendHex _ _)⟩
  by_cases hs : r < 0x10000
  · refine ⟨lit "\\u" ++ appendHex [] r 4, fun buf => by
        rw [if_neg h1, if_neg h2, if_neg h7, if_neg h8, if_neg h12, if_neg h10, if_neg h13,
          if_neg h9, if_neg h11, if_neg hx, if_neg hv, if_pos hs, appendHex_eq,
          List.append_assoc],
      fun _ _ _ => clean_append cu (clean_appendHex _ _)⟩
  · refine ⟨lit "\\U" ++ appendHex [] r 8, fun buf => by
        rw [if_neg h1, if_neg h2, if_neg h7, if_neg h8, if_neg h12, if_neg h10, if_neg h13,
          if_neg h9, if_neg h11, if_neg hx, if_neg hv, if_neg hs, appendHex_eq,
          List.append_assoc],
      fun _ _ _ => clean_append cU (clean_appendHex _ _)⟩

theorem appendEscapedRune_plain (table : Nat → Bool) {c : Byte} (h : Plain c)
    (buf : GoString) : appendEscapedRune table buf c.val = buf ++ [c] := by
  obtain ⟨h1, h2, h3, h4⟩ := h
  have e34 : ¬ (c.val = 34 ∨ c.val = 92) := by
    rintro (e | e)
    · exact h3 (Fin.ext e)
    · exact h4 (Fin.ext e)
  have hp : IsPrint table c.val = true := by
    unfold IsPrint
    rw [if_pos (show c.val ≤ 0xFF by omega), if_pos ⟨h1, h2⟩]
  have hb : byteOf c.val = c := Fin.ext (byteOf_val c.isLt)
  unfold appendEscapedRune
  rw [if_neg e34, if_pos hp]
  unfold AppendRune
  rw [if_pos (show c.val ≤ 0x7F by omega), hb]


theorem quoteLoop_succ (table : Nat → Bool) (fuel : Nat) (c : Byte) (s buf : GoString) :
    quoteLoop table (fuel + 1) (c :: s) buf =
      if (if c.val ≥ 0x80 then DecodeRuneInString (c :: s) else (c.val, 1)).2 ≤ s.length + 1 then
        if (if c.val ≥ 0x80 then DecodeRuneInString (c :: s) else (c.val, 1)).2 = 1 ∧
            (if c.val ≥ 0x80 then DecodeRuneInString (c :: s) else (c.val, 1)).1 = RuneError then
          quoteLoop table fuel
            ((c :: s).drop (if c.val ≥ 0x80 then DecodeRuneInString (c :: s) else (c.val, 1)).2)
            (buf ++ lit "\\x" ++ [lowerhexAt (c >>> 4).val, lowerhexAt (c &&& 0xF).val])
        else
          quoteLoop table fuel
            ((c :: s).drop (if c.val ≥ 0x80 then DecodeRuneInString (c :: s) else (c.val, 1)).2)
            (appendEscapedRune table buf
              (if c.val ≥ 0x80 then DecodeRuneInString (c :: s) else (c.val, 1)).1)
      else Run.panic := by
  rw [quoteLoop]
  rw [if_pos (by simp)]
  rfl

theorem clean_hexEscape (c : Byte) :
    Clean (lit "\\x" ++ [lowerhexAt (c >>> 4).val, lowerhexAt (c &&& 0xF).val]) := by
  refine clean_append (by unfold Clean; decide) ?_
  intro b hb
  simp only [List.mem_cons, List.mem_singleton, List.not_mem_nil, or_false] at hb
  rcases hb with rfl | rfl <;> exact lowerhexAt_clean _

/-- One turn of the loop of `Quote`: it consumes `w` bytes, between one and all that are
left, and appends a chunk; a plain byte is copied, and the chunk has no `&`, `<` or `>`
unless the first byte is one of them. -/
theorem quoteLoop_step (table : Nat → Bool) (c : Byte) (s : GoString) :
    ∃ w chunk, 1 ≤ w ∧ w ≤ s.length + 1 ∧
      (∀ fuel buf, quoteLoop table (fuel + 1) (c :: s) buf =
        quoteLoop table fuel ((c :: s).drop w) (buf ++ chunk)) ∧
      (Plain c → w = 1 ∧ chunk = [c]) ∧
      (c ≠ 38 → c ≠ 60 → c ≠ 62 → Clean chunk) := by
  by_cases hc : c.val ≥ 0x80
  · have hnp : ¬ Plain c := fun h => by have := h.2.1; omega
    rcases decode_spec (c :: s) (by simp) with ⟨hw, hr⟩ | ⟨hw, hr, hlt⟩ | ⟨hw2, hwl, hr⟩
    · refine ⟨1, lit "\\x" ++ [lowerhexAt (c >>> 4).val, lowerhexAt (c &&& 0xF).val],
        le_refl _, by omega, fun fuel buf => ?_, fun h => absurd h hnp,
        fun _ _ _ => clean_hexEscape c⟩
      rw [quoteLoop_succ, if_pos hc, hw, hr, if_pos (by omega), if_pos ⟨rfl, rfl⟩,
        List.append_assoc]
    · simp at hlt
      omega
    · obtain ⟨chunk, hchunk, hclean⟩ :=
        appendEscapedRune_chunk table (DecodeRuneInString (c :: s)).1
      refine ⟨(DecodeRuneInString (c :: s)).2, chunk, by omega, by simpa using hwl,
        fun fuel buf => ?_, fun h => absurd h hnp,
        fun _ _ _ => hclean (by omega) (by omega) (by omega)⟩
      rw [quoteLoop_succ, if_pos hc, if_pos (by simpa using hwl),
        if_neg (fun h => by omega), hchunk]
  · have hne : c.val ≠ RuneError := by unfold RuneError; omega
    obtain ⟨chunk, hchunk, hclean⟩ := appendEscapedRune_chunk table c.val
    refine ⟨1, chunk, le_refl _, by omega, fun fuel buf => ?_, fun h => ⟨rfl, ?_⟩,
      fun h38 h60 h62 => hclean (fun e => h38 (Fin.ext e)) (fun e => h60 (Fin.ext e))
        (fun e => h62 (Fin.ext e))⟩
    · rw [quoteLoop_succ, if_neg hc, if_pos (by simp), if_neg (fun h => hne h.2), hchunk]
    · have := appendEscapedRune_plain table h []
      rw [hchunk] at this
      simpa using this

/-- The loop of `Quote` ends within any budget above the length of the text, without a
panic. It copies a prefix of plain bytes, and what it appends cannot open or close markup
when the text cannot. -/
theorem quoteLoop_spec (table : Nat → Bool) (fuel : Nat) (s buf : GoString)
    (h : s.length < fuel) :
    ∃ out, quoteLoop table fuel s buf = Run.done (buf ++ out) ∧
      (∀ e, (∀ b ∈ e, Plain b) → e <+: s → e <+: out) ∧
      (NoMarkup s → NoMarkup out) := by
  induction fuel generalizing s buf with
  | zero => omega
  | succ fuel ih =>
    cases s with
    | nil =>
      refine ⟨[], by simp [quoteLoop], fun e _ he => he, fun h => h⟩
    | cons c s =>
      obtain ⟨w, chunk, hw1, hw2, hstep, hplain, hclean⟩ := quoteLoop_step table c s
      have hlen : ((c :: s).drop w).length < fuel := by
        simp only [List.length_drop, List.length_cons] at h ⊢
        omega
      obtain ⟨out, hout, hpre, hsafe⟩ := ih ((c :: s).drop w) (buf ++ chunk) hlen
      refine ⟨chunk ++ out, by rw [hstep, hout, List.append_assoc], ?_, ?_⟩
      · intro e hplain_e he
        cases e with
        | nil => exact List.nil_prefix
        | cons b e =>
          obtain ⟨rfl, he'⟩ := List.cons_prefix_cons.mp he
          obtain ⟨rfl, rfl⟩ := hplain (hplain_e b (by simp))
          have := hpre e (fun x hx => hplain_e x (List.mem_cons_of_mem _ hx))
            (by simpa using he')
          simpa using this
      · intro hs
        have hrest : NoMarkup out := hsafe (noMarkup_drop w hs)
        obtain ⟨h60, h62, hamp, -⟩ := (noMarkup_cons_iff c s).mp hs
        by_cases h38 : c = 38
        · subst h38
          obtain ⟨rfl, rfl⟩ := hplain (by unfold Plain; decide)
          obtain ⟨e, he, hp⟩ := hamp rfl
          obtain ⟨tail, rfl, -, htail⟩ := entity_shape he
          have hp' : tail <+: s := (List.cons_prefix_cons.mp hp).2
          have := hpre tail htail (by simpa using hp')
          rw [List.singleton_append, noMarkup_cons_iff]
          exact ⟨by decide, by decide, fun _ => ⟨_, he, List.cons_prefix_cons.mpr ⟨rfl, this⟩⟩,
            hrest⟩
        · exact noMarkup_append_clean (hclean h38 h60 h62) hrest


theorem HasPrefix_iff (s pre : GoString) : HasPrefix s pre = true ↔ pre <+: s := by
  unfold HasPrefix
  rw [Bool.and_eq_true, decide_eq_true_eq, decide_eq_true_eq, List.prefix_iff_eq_take]
  constructor
  · rintro ⟨-, h⟩
    exact h.symm
  · intro h
    refine ⟨?_, h.symm⟩
    have := congrArg List.length h
    rw [List.length_take] at this
    omega

/-- `Quote` returns, and what it returns cannot open or close markup when its argument
cannot. -/
theorem Quote_spec (table : Nat → Bool) (s : GoString) :
    ∃ q, Quote table s = Run.done q ∧ (NoMarkup s → NoMarkup q) := by
  obtain ⟨out, hout, -, hsafe⟩ := quoteLoop_spec table (s.length + 1) s [34] (Nat.lt_succ_self _)
  refine ⟨[34] ++ out ++ [34], by simp only [Quote, hout], fun hs => ?_⟩
  rw [List.append_assoc]
  exact noMarkup_append_clean (by unfold Clean; decide)
    (noMarkup_append_right (hsafe hs) (by unfold Clean; decide))

theorem handler_rejected (table : Nat → Bool) (r : Request) (h : ¬ lit "click" <+: r.Host) :
    handler table r =
      Run.done { status := 404, body := lit "piss off\n", logged := [], records := [] } := by
  have : HasPrefix r.Host (lit "click") = false := by
    rw [← Bool.not_eq_true, HasPrefix_iff]
    exact h
  unfold handler
  rw [this]
  rfl

theorem handler_accepted (table : Nat → Bool) (r : Request) (h : lit "click" <+: r.Host) :
    ∃ quoted resp, Quote table (EscapeString r.Path) = Run.done quoted ∧
      NoMarkup quoted ∧ handler table r = Run.done resp ∧ resp.status = 200 ∧
      resp.body = lit "Hello from " ++ quoted ∧ resp.records = [r.Form] := by
  obtain ⟨q, hq, hsafe⟩ := Quote_spec table (EscapeString r.Path)
  have hp : HasPrefix r.Host (lit "click") = true := (HasPrefix_iff _ _).mpr h
  have hr : handler table r = Run.done
      { status := 200, body := lit "Hello from " ++ q,
        logged := (match r.ParseFormErr with
          | some err => [LogLine.parseFailed r.URL err]
          | none => []) ++ [LogLine.request r.Host r.URL r.RemoteAddr],
        records := [r.Form] } := by
    unfold handler
    rw [hp, hq]
    rfl
  exact ⟨q, _, hq, hsafe (noMarkup_EscapeString _), hr, rfl, rfl, rfl⟩

/-! ### Query escaping lemmas -/

theorem shouldEscape_space (mode : encoding) : shouldEscape 32 mode = true := by
  cases mode <;> decide

theorem escapeByte_of_not_shouldEscape {mode : encoding} {c : Byte}
    (h : shouldEscape c mode = false) : escapeByte mode c = [c] := by
  unfold escapeByte
  have h32 : ¬ (c = 32 ∧ mode = encodeQueryComponent) := by
    rintro ⟨rfl, -⟩
    rw [shouldEscape_space] at h
    exact Bool.noConfusion h
  rw [if_neg h32, h]
  rfl

/-- Whatever branch `escape` takes, its result is the bytes of `s` escaped one by one. -/
theorem escape_eq (s : GoString) (mode : encoding) :
    escape s mode = (s.map (escapeByte mode)).flatten := by
  unfold escape
  simp only
  split_ifs with h1 h2
  · obtain ⟨hs, hh⟩ := h1
    rw [List.countP_eq_zero] at hs hh
    have : ∀ c ∈ s, escapeByte mode c = [c] := by
      intro c hc
      apply escapeByte_of_not_shouldEscape
      have a := hs c hc
      have b := hh c hc
      cases hse : shouldEscape c mode
      · rfl
      · simp [hse] at a b
        exact absurd b.2 (a b.1)
    clear hs hh
    induction s with
    | nil => rfl
    | cons c s ih =>
      rw [List.map_cons, List.flatten_cons, this c (by simp),
        ← ih (fun x hx => this x (List.mem_cons_of_mem _ hx))]
      rfl
  · rw [List.countP_eq_zero] at h2
    have : ∀ c ∈ s, escapeByte mode c = [if c = 32 then 43 else c] := by
      intro c hc
      have b := h2 c hc
      by_cases h32 : c = 32
      · subst h32
        simp only [shouldEscape_space, Bool.true_and, Bool.not_eq_true', decide_eq_false_iff_not,
          not_not, true_and, Bool.not_eq_true] at b
        simp [escapeByte, b]
      · rw [if_neg h32]
        apply escapeByte_of_not_shouldEscape
        cases hse : shouldEscape c mode
        · rfl
        · simp [hse, h32] at b
    clear h1 h2
    induction s with
    | nil => rfl
    | cons c s ih =>
      rw [List.map_cons, List.map_cons, List.flatten_cons, this c (by simp),
        ih (fun x hx => this x (List.mem_cons_of_mem _ hx))]
      rfl
  · rfl

/-- The three shapes of a query-escaped byte: `+` for a space, `%` and two hex digits that
decode to the byte, or the byte itself, which is then none of `%`, `+`, `&`, `=`, `;`. -/
theorem escapeByte_query (c : Byte) :
    (escapeByte encodeQueryComponent c = [43] ∧ c = 32) ∨
    (escapeByte encodeQueryComponent c = [37, upperhexAt (c >>> 4).val, upperhexAt (c &&& 15).val] ∧
      ishex (upperhexAt (c >>> 4).val) = true ∧ ishex (upperhexAt (c &&& 15).val) = true ∧
      unhex (upperhexAt (c >>> 4).val) <<< 4 ||| unhex (upperhexAt (c &&& 15).val) = c) ∨
    (escapeByte encodeQueryComponent c = [c] ∧ c ≠ 37 ∧ c ≠ 43 ∧ c ≠ 38 ∧ c ≠ 61 ∧ c ≠ 59) := by
  revert c
  decide

theorem upperhexAt_clean (i : Nat) :
    upperhexAt i ≠ 38 ∧ upperhexAt i ≠ 61 ∧ upperhexAt i ≠ 59 := by
  by_cases h : i < 16
  · have key : ∀ j : Fin 16,
        upperhexAt j.val ≠ 38 ∧ upperhexAt j.val ≠ 61 ∧ upperhexAt j.val ≠ 59 := by decide
    exact key ⟨i, h⟩
  · have : upperhexAt i = 0 := by
      unfold upperhexAt
      rw [List.getD_eq_default]
      have : upperhex.length = 16 := by decide
      omega
    rw [this]
    decide

theorem escapeByte_query_clean (c b : Byte) (hb : b ∈ escapeByte encodeQueryComponent c) :
    b ≠ 38 ∧ b ≠ 61 ∧ b ≠ 59 := by
  rcases escapeByte_query c with ⟨h, -⟩ | ⟨h, -⟩ | ⟨h, -, -, h38, h61, h59⟩
  · rw [h] at hb
    simp only [List.mem_singleton] at hb
    subst hb
    decide
  · rw [h] at hb
    simp only [List.mem_cons, List.mem_singleton, List.not_mem_nil, or_false] at hb
    rcases hb with rfl | rfl | rfl
    · decide
    · exact upperhexAt_clean _
    · exact upperhexAt_clean _
  · rw [h] at hb
    simp only [List.mem_singleton] at hb
    subst hb
    exact ⟨h38, h61, h59⟩

/-- A query-escaped string has no `&`, `=` or `;`. -/
theorem QueryEscape_clean (s : GoString) : ∀ b ∈ QueryEscape s, b ≠ 38 ∧ b ≠ 61 ∧ b ≠ 59 := by
  intro b hb
  unfold QueryEscape at hb
  rw [escape_eq, List.mem_flatten] at hb
  obtain ⟨l, hl, hbl⟩ := hb
  obtain ⟨c, -, rfl⟩ := List.mem_map.mp hl
  exact escapeByte_query_clean c b hbl

theorem unescapeCheck_plus (rest : GoString) (n : Nat) (hp : Bool) :
    unescapeCheck encodeQueryComponent (43 :: rest) n hp =
      unescapeCheck encodeQueryComponent rest n true := by
  conv_lhs => unfold unescapeCheck
  rw [if_neg (by decide), if_pos rfl]
  rfl

theorem unescapeCheck_percent (a b : Byte) (rest : GoString) (n : Nat) (hp : Bool)
    (ha : ishex a = true) (hb : ishex b = true) :
    unescapeCheck encodeQueryComponent (37 :: a :: b :: rest) n hp =
      unescapeCheck encodeQueryComponent rest (n + 1) hp := by
  conv_lhs => unfold unescapeCheck
  rw [if_pos rfl]
  simp only [ha, hb, Bool.not_true, Bool.false_eq_true, or_self, if_false]
  rw [if_neg (fun h => by cases h.1), if_neg (fun h => by cases h.1)]

theorem unescapeCheck_other (c : Byte) (rest : GoString) (n : Nat) (hp : Bool)
    (h37 : c ≠ 37) (h43 : c ≠ 43) :
    unescapeCheck encodeQueryComponent (c :: rest) n hp =
      unescapeCheck encodeQueryComponent rest n hp := by
  conv_lhs => unfold unescapeCheck
  rw [if_neg h37, if_neg h43, if_neg (fun h => by rcases h.1 with h | h <;> cases h)]

theorem unescapeBuild_plus (rest : GoString) :
    unescapeBuild encodeQueryComponent (43 :: rest) =
      32 :: unescapeBuild encodeQueryComponent rest := by
  conv_lhs => unfold unescapeBuild
  rw [if_neg (by decide), if_pos rfl, if_pos rfl]

theorem unescapeBuild_percent (a b : Byte) (rest : GoString) :
    unescapeBuild encodeQueryComponent (37 :: a :: b :: rest) =
      (unhex a <<< 4 ||| unhex b) :: unescapeBuild encodeQueryComponent rest := by
  conv_lhs => unfold unescapeBuild
  rw [if_pos rfl]

theorem unescapeBuild_other (c : Byte) (rest : GoString) (h37 : c ≠ 37) (h43 : c ≠ 43) :
    unescapeBuild encodeQueryComponent (c :: rest) =
      c :: unescapeBuild encodeQueryComponent rest := by
  conv_lhs => unfold unescapeBuild
  rw [if_neg h37, if_neg h43]

/-- On a query-escaped string both loops of `unescape` succeed and rebuild the original;
when the first loop saw no `%` and no `+`, the escaped string is the original. -/
theorem unescape_escaped (t : GoString) (n : Nat) (hp : Bool) :
    ∃ n' hp', unescapeCheck encodeQueryComponent
        ((t.map (escapeByte encodeQueryComponent)).flatten) n hp = Except.ok (n', hp') ∧
      n ≤ n' ∧ (hp = true → hp' = true) ∧
      (n' = n → hp' = false → (t.map (escapeByte encodeQueryComponent)).flatten = t) ∧
      unescapeBuild encodeQueryComponent ((t.map (escapeByte encodeQueryComponent)).flatten) = t := by
  induction t generalizing n hp with
  | nil => exact ⟨n, hp, rfl, le_refl _, id, fun _ _ => rfl, rfl⟩
  | cons c t ih =>
    rw [List.map_cons, List.flatten_cons]
    rcases escapeByte_query c with ⟨h, rfl⟩ | ⟨h, ha, hb, hc⟩ | ⟨h, h37, h43, -⟩
    · obtain ⟨n', hp', h1, h2, h3, -, h5⟩ := ih n true
      rw [h, List.singleton_append, unescapeCheck_plus, unescapeBuild_plus, h5]
      refine ⟨n', hp', h1, h2, fun _ => h3 rfl, fun _ hf => ?_, rfl⟩
      rw [h3 rfl] at hf
      cases hf
    · obtain ⟨n', hp', h1, h2, h3, -, h5⟩ := ih (n + 1) hp
      rw [h]
      simp only [List.cons_append, List.nil_append]
      rw [unescapeCheck_percent _ _ _ _ _ ha hb, unescapeBuild_percent, h5, hc]
      exact ⟨n', hp', h1, by omega, h3, fun hn => by omega, rfl⟩
    · obtain ⟨n', hp', h1, h2, h3, h4, h5⟩ := ih n hp
      rw [h, List.singleton_append, unescapeCheck_other _ _ _ _ h37 h43,
        unescapeBuild_other _ _ h37 h43, h5]
      exact ⟨n', hp', h1, h2, h3, fun hn hf => by rw [h4 hn hf], rfl⟩

/-- `QueryUnescape` undoes `QueryEscape`. -/
theorem QueryUnescape_QueryEscape (t : GoString) :
    QueryUnescape (QueryEscape t) = Except.ok t := by
  unfold QueryUnescape QueryEscape unescape
  rw [escape_eq]
  obtain ⟨n', hp', h1, -, -, h4, h5⟩ := unescape_escaped t 0 false
  rw [h1]
  simp only
  split_ifs with hc
  · rw [h4 hc.1 (by simpa using hc.2)]
  · rw [h5]

/-! ### `Values.Encode` lemmas -/

/-- The step of the loops of `Values.Encode` for one pair. -/
theorem encodeValues_eq (k : GoString) (buf : GoString) (vs : List GoString) :
    encodeValues (QueryEscape k) buf vs =
      (vs.map (fun x => (k, x))).foldl
        (fun buf p => (if buf.length > 0 then buf ++ [38] else buf) ++ segment p) buf := by
  unfold encodeValues
  rw [List.foldl_map]
  congr 1
  funext buf x
  simp [segment, List.append_assoc]

theorem encode_fold_keys (v : Values) (keys : List GoString) (buf : GoString) :
    keys.foldl (fun buf k => encodeValues (QueryEscape k) buf ((v.get k).getD [])) buf =
      ((keys.map (fun k => ((v.get k).getD []).map (fun x => (k, x)))).flatten).foldl
        (fun buf p => (if buf.length > 0 then buf ++ [38] else buf) ++ segment p) buf := by
  induction keys generalizing buf with
  | nil => rfl
  | cons k keys ih =>
    rw [List.foldl_cons, ih, List.map_cons, List.flatten_cons, List.foldl_append,
      encodeValues_eq]

theorem segment_ne_nil (p : GoString × GoString) : segment p ≠ [] := by
  unfold segment
  simp

theorem fold_segments (L : List (GoString × GoString)) (buf : GoString) :
    L.foldl (fun buf p => (if buf.length > 0 then buf ++ [38] else buf) ++ segment p) buf =
      if buf = [] then joinSegments (L.map segment)
      else if L = [] then buf
      else buf ++ 38 :: joinSegments (L.map segment) := by
  induction L generalizing buf with
  | nil => by_cases h : buf = [] <;> simp [h, joinSegments]
  | cons p L ih =>
    rw [List.foldl_cons, ih]
    have hne : (if buf.length > 0 then buf ++ [38] else buf) ++ segment p ≠ [] := by
      simp [segment_ne_nil]
    rw [if_neg hne]
    by_cases hb : buf = []
    · subst hb
      cases L with
      | nil => simp [joinSegments]
      | cons q L => simp [joinSegments]
    · have hlen : buf.length > 0 := List.length_pos.mpr hb
      cases L with
      | nil => simp [joinSegments, hb, hlen]
      | cons q L => simp [joinSegments, hb, hlen]

/-- `Values.Encode` writes the pairs of the map, escaped and joined by `&`. -/
theorem Encode_eq (v : Values) : v.Encode = joinSegments (v.pairs.map segment) := by
  unfold Values.Encode Values.pairs
  split_ifs with h
  · have : v = [] := List.length_eq_zero.mp h
    subst this
    rfl
  · rw [encode_fold_keys, fold_segments, if_pos rfl]

/-! ### `ParseQuery` lemmas -/

theorem cut_append {sep : Byte} {a : GoString} (b : GoString) (h : sep ∉ a) :
    cut sep (a ++ sep :: b) = some (a, b) := by
  induction a with
  | nil => simp [cut]
  | cons c a ih =>
    simp only [List.mem_cons, not_or] at h
    simp [cut, Ne.symm h.1, ih h.2]

theorem segment_clean (p : GoString × GoString) : (38 : Byte) ∉ segment p ∧ (59 : Byte) ∉ segment p := by
  unfold segment
  constructor
  · intro h
    simp only [List.mem_append, List.mem_singleton] at h
    rcases h with (h | h) | h
    · exact (QueryEscape_clean _ _ h).1 rfl
    · exact absurd h (by decide)
    · exact (QueryEscape_clean _ _ h).1 rfl
  · intro h
    simp only [List.mem_append, List.mem_singleton] at h
    rcases h with (h | h) | h
    · exact (QueryEscape_clean _ _ h).2.2 rfl
    · exact absurd h (by decide)
    · exact (QueryEscape_clean _ _ h).2.2 rfl

theorem cut_segment (p : GoString × GoString) :
    cut 61 (segment p) = some (QueryEscape p.1, QueryEscape p.2) := by
  unfold segment
  rw [List.append_assoc, List.singleton_append]
  exact cut_append _ (fun h => (QueryEscape_clean _ _ h).2.1 rfl)

/-- One turn of the loop of `parseQuery` on a query that starts with the segment of a
pair: the pair is added and the loop goes on with what follows the `&`. -/
theorem parseQueryLoop_step (fuel : Nat) (m : Values) (err : Option UrlError)
    (p : GoString × GoString) (query rest : GoString)
    (hcut : query = segment p ∧ rest = [] ∨ query = segment p ++ 38 :: rest) :
    parseQueryLoop (fuel + 1) m err query = parseQueryLoop fuel (m.Add p.1 p.2) err rest := by
  have hq : query ≠ [] := by
    rcases hcut with ⟨rfl, -⟩ | rfl
    · exact segment_ne_nil p
    · simp
  have hkr : cut 38 query = some (segment p, rest) ∨
      (cut 38 query = none ∧ query = segment p ∧ rest = []) := by
    rcases hcut with ⟨rfl, rfl⟩ | rfl
    · exact Or.inr ⟨cut_eq_none (segment_clean p).1, rfl, rfl⟩
    · exact Or.inl (cut_append _ (segment_clean p).1)
  conv_lhs => unfold parseQueryLoop
  rw [if_pos hq]
  rcases hkr with h | ⟨h, h2, h3⟩
  · simp only [h]
    rw [if_neg (segment_clean p).2, if_neg (segment_ne_nil p)]
    simp only [cut_segment, QueryUnescape_QueryEscape]
  · simp only [h]
    subst h2 h3
    rw [if_neg (segment_clean p).2, if_neg (segment_ne_nil p)]
    simp only [cut_segment, QueryUnescape_QueryEscape]

/-- The loop of `parseQuery` on the joined segments of a list of pairs adds every pair, in
order, and reports no error of its own. -/
theorem parseQueryLoop_join (L : List (GoString × GoString)) (fuel : Nat) (m : Values)
    (err : Option UrlError) (h : (joinSegments (L.map segment)).length < fuel) :
    parseQueryLoop fuel m err (joinSegments (L.map segment)) =
      Run.done (L.foldl (fun m p => m.Add p.1 p.2) m, err) := by
  induction L generalizing fuel m with
  | nil =>
    obtain ⟨k, rfl⟩ : ∃ k, fuel = k + 1 := ⟨fuel - 1, by omega⟩
    simp [joinSegments, parseQueryLoop]
  | cons p L ih =>
    obtain ⟨k, rfl⟩ : ∃ k, fuel = k + 1 := ⟨fuel - 1, by omega⟩
    cases L with
    | nil =>
      simp only [List.map_cons, List.map_nil, joinSegments] at h ⊢
      rw [parseQueryLoop_step k m err p (segment p) [] (Or.inl ⟨rfl, rfl⟩)]
      have hk : 0 < k := by
        have := List.length_pos.mpr (segment_ne_nil p)
        omega
      obtain ⟨j, rfl⟩ : ∃ j, k = j + 1 := ⟨k - 1, by omega⟩
      simp [parseQueryLoop]
    | cons q L =>
      simp only [List.map_cons, joinSegments] at h ⊢
      rw [parseQueryLoop_step k m err p _ (joinSegments (segment q :: L.map segment))
        (Or.inr rfl)]
      have := ih k (m.Add p.1 p.2) (by
        simp only [List.map_cons, List.length_append, List.length_cons] at h ⊢
        omega)
      simpa using this

/-! ### Lookup lemmas -/

theorem Values.get_add (m : Values) (k x k' : GoString) :
    (m.Add k x).get k' = if k = k' then some ((m.get k).getD [] ++ [x]) else m.get k' := by
  unfold Values.Add
  rw [Values.get_put]

theorem foldl_add_get (L : List (GoString × GoString)) (m : Values) (k : GoString) :
    (L.foldl (fun m p => m.Add p.1 p.2) m).get k =
      if (L.filter (fun p => decide (p.1 = k))).map Prod.snd = [] then m.get k
      else some ((m.get k).getD [] ++ (L.filter (fun p => decide (p.1 = k))).map Prod.snd) := by
  induction L generalizing m with
  | nil => simp
  | cons p L ih =>
    rw [List.foldl_cons, ih, Values.get_add]
    by_cases hp : p.1 = k
    · subst hp
      simp only [List.filter_cons, decide_True, if_true, List.map_cons]
      by_cases hv : (L.filter (fun q => decide (q.1 = p.1))).map Prod.snd = []
      · simp [hv]
      · simp [hv]
    · simp only [List.filter_cons, hp, decide_False, if_false]
      simp

theorem filter_pairs (V : GoString → List GoString) (ks : List GoString) (hnd : ks.Nodup)
    (k : GoString) :
    (((ks.map (fun k' => (V k').map (fun x => (k', x)))).flatten).filter
        (fun p => decide (p.1 = k))).map Prod.snd = if k ∈ ks then V k else [] := by
  induction ks with
  | nil => simp
  | cons k' ks ih =>
    rw [List.nodup_cons] at hnd
    rw [List.map_cons, List.flatten_cons, List.filter_append, List.map_append, ih hnd.2]
    by_cases hk : k' = k
    · subst hk
      have h1 : ((V k').map (fun x => (k', x))).filter (fun p => decide (p.1 = k')) =
          (V k').map (fun x => (k', x)) := by
        rw [List.filter_eq_self]
        intro p hp
        obtain ⟨x, -, rfl⟩ := List.mem_map.mp hp
        simp
      rw [h1, if_neg hnd.1]
      simp
    · have h1 : ((V k').map (fun x => (k', x))).filter (fun p => decide (p.1 = k)) = [] := by
        rw [List.filter_eq_nil_iff]
        intro p hp
        obtain ⟨x, -, rfl⟩ := List.mem_map.mp hp
        simpa using hk
      rw [h1]
      simp [Ne.symm hk]

theorem Values.get_eq_none_iff (v : Values) (k : GoString) : v.get k = none ↔ k ∉ v.keys := by
  induction v with
  | nil => simp [Values.get, Values.keys]
  | cons e v ih =>
    obtain ⟨a, b⟩ := e
    unfold Values.keys at ih ⊢
    by_cases h : a = k
    · simp [Values.get, h]
    · simp [Values.get, h, ih, Ne.symm h]

theorem Values.keys_put (v : Values) (k : GoString) (vs : List GoString) :
    (v.put k vs).keys = if k ∈ v.keys then v.keys else v.keys ++ [k] := by
  induction v with
  | nil => simp [Values.put, Values.keys]
  | cons e v ih =>
    obtain ⟨a, b⟩ := e
    unfold Values.keys at ih ⊢
    by_cases h : a = k
    · simp [Values.put, h]
    · simp only [Values.put, h, if_false, List.map_cons, ih, List.mem_cons, Ne.symm h, false_or]
      split_ifs <;> simp

theorem Values.wf_nil : Values.WF [] := by
  refine ⟨by simp [Values.keys], fun k vs h => ?_⟩
  simp [Values.get] at h

theorem Values.wf_add {v : Values} (h : v.WF) (k x : GoString) : (v.Add k x).WF := by
  obtain ⟨hnd, hne⟩ := h
  constructor
  · unfold Values.Add
    rw [Values.keys_put]
    split_ifs with hk
    · exact hnd
    · exact List.Nodup.append hnd (by simp) (by simpa using hk)
  · intro k' vs hget
    rw [Values.get_add] at hget
    split_ifs at hget with hk
    · simp at hget
      rw [← hget]
      simp
    · exact hne k' vs hget

theorem buildParameters_wf (args : List GoString) (p q : Values) (hp : p.WF)
    (h : args.foldlM addArg p = some q) : q.WF := by
  induction args generalizing p with
  | nil =>
    simp at h
    rw [← h]
    exact hp
  | cons a args ih =>
    rw [List.foldlM_cons, addArg_eq] at h
    exact ih _ (Values.wf_add hp _ _) h

/-- Adding the pairs of a well-formed map, in the order `Values.Encode` writes them, to an
empty map gives a map with the same entry for every key. -/
theorem foldl_add_pairs (P : Values) (hP : P.WF) (k : GoString) :
    Values.get (P.pairs.foldl (fun m p => Values.Add m p.1 p.2) ([] : Values)) k = P.get k := by
  have hperm : List.Perm (sortStrings P.keys) P.keys := List.perm_insertionSort _ _
  rw [foldl_add_get]
  unfold Values.pairs
  rw [filter_pairs (fun k => (P.get k).getD []) _ (hperm.nodup_iff.mpr hP.1)]
  by_cases hk : k ∈ P.keys
  · rw [if_pos (hperm.mem_iff.mpr hk)]
    cases hget : P.get k with
    | none => exact absurd ((Values.get_eq_none_iff P k).mp hget) (not_not.mpr hk)
    | some vs =>
      have := hP.2 k vs hget
      simp [Values.get, this]
  · rw [if_neg (fun h => hk (hperm.mem_iff.mp h))]
    simp [Values.get, (Values.get_eq_none_iff P k).mpr hk]

/-! ### Link lemmas -/

/-- `ParseQuery` of the encoding of a well-formed map gives back, without error, a map with
the same entry for every key. -/
theorem ParseQuery_Encode (P : Values) (hP : P.WF) :
    ∃ parsed, ParseQuery P.Encode = Run.done (parsed, none) ∧ ∀ k, parsed.get k = P.get k := by
  refine ⟨P.pairs.foldl (fun m p => Values.Add m p.1 p.2) ([] : Values), ?_,
    foldl_add_pairs P hP⟩
  unfold ParseQuery
  rw [Encode_eq]
  exact parseQueryLoop_join P.pairs _ [] none (Nat.lt_succ_self _)

theorem buildParameters_total (args : List GoString) :
    ∃ P, buildParameters args = some P ∧ P.WF := by
  obtain ⟨q, hq, -, -⟩ := foldlM_addArg args []
  exact ⟨q, hq, buildParameters_wf args [] q Values.wf_nil hq⟩

/-- The link is the URL without its query and fragment, then `?` and the query, then the
fragment. -/
theorem String_query (u : URL) :
    u.String =
      URL.String { u with RawQuery := [], ForceQuery := false, Fragment := [] } ++
      (if u.ForceQuery ∨ u.RawQuery ≠ [] then [63] ++ u.RawQuery else []) ++
      (if u.Fragment ≠ [] then [35] ++ u.EscapedFragment else []) := by
  have hq : ∀ buf, URL.writeQuery
      { u with RawQuery := [], ForceQuery := false, Fragment := [] } buf = buf := by
    intro buf
    unfold URL.writeQuery
    rw [if_neg (by simp)]
  have hf : ∀ buf, URL.writeFragment
      { u with RawQuery := [], ForceQuery := false, Fragment := [] } buf = buf := by
    intro buf
    unfold URL.writeFragment
    rw [if_neg (by simp)]
  unfold URL.String
  rw [hq, hf]
  unfold URL.writeFragment URL.writeQuery
  split_ifs <;> simp only [List.append_nil, List.append_assoc] <;> rfl

theorem escape_of_not_shouldEscape {s : GoString} {mode : encoding}
    (h : ∀ c ∈ s, shouldEscape c mode = false) : escape s mode = s := by
  rw [escape_eq]
  induction s with
  | nil => rfl
  | cons c s ih =>
    rw [List.map_cons, List.flatten_cons, escapeByte_of_not_shouldEscape (h c (by simp)),
      ih (fun x hx => h x (List.mem_cons_of_mem _ hx))]
    rfl

theorem parse_example :
    Parse (lit "https://example.com/t") =
      Except.ok { Scheme := lit "https", Host := lit "example.com", Path := lit "/t" } := by
  decide

/-- On the base URL `https://example.com/t`, an explicit path that starts with a slash and
needs no escaping is written into the link as it is. -/
theorem buildLink_example_path (path : GoString) (parameters : Values)
    (hslash : path.head? = some 47)
    (hsafe : ∀ c ∈ path, shouldEscape c encodePath = false) :
    buildLink (lit "https://example.com/t") path parameters =
      Except.ok (lit "https://example.com" ++ path ++
        (if parameters.Encode = [] then [] else [63] ++ parameters.Encode)) := by
  have hne : path ≠ [] := by
    rintro rfl
    simp at hslash
  have hstar : path ≠ lit "*" := by
    rintro rfl
    revert hslash
    decide
  unfold buildLink
  rw [parse_example]
  simp only
  rw [String_query]
  unfold setLink
  simp only [hne, ne_eq, not_false_eq_true, if_true, Bool.false_eq_true, false_or,
    not_true_eq_false, if_false, List.append_nil]
  have hpath :
      URL.EscapedPath { Scheme := lit "https", Host := lit "example.com", Path := path } =
        path := by
    unfold URL.EscapedPath
    rw [if_neg (by simp), if_neg hstar, escape_of_not_shouldEscape hsafe]
  have h1 : lit "example.com" ≠ ([] : GoString) := by decide
  have h2 : lit "https" ≠ ([] : GoString) := by decide
  have ha : ∀ p : GoString,
      URL.writeAuthority { Scheme := lit "https", Host := lit "example.com", Path := p }
        (URL.writeScheme { Scheme := lit "https", Host := lit "example.com", Path := p }) =
      lit "https://example.com" := by
    intro p
    unfold URL.writeAuthority URL.writeScheme
    simp only
    rw [if_pos (Or.inl h2), if_neg (fun h => by cases h.1), if_pos h1, if_pos (Or.inl h1),
      if_pos h2]
    decide
  have hpathw :
      URL.writePath { Scheme := lit "https", Host := lit "example.com", Path := path }
        (lit "https://example.com") = lit "https://example.com" ++ path := by
    unfold URL.writePath
    rw [hpath]
    simp only
    have hs : ¬ (path ≠ [] ∧ path.head? ≠ some 47 ∧ lit "example.com" ≠ ([] : GoString)) :=
      fun h => h.2.1 hslash
    rw [if_neg hs]
    split_ifs with h
    · exact absurd h.1 (by decide)
    · rfl
  have hhead :
      URL.String { Scheme := lit "https", Host := lit "example.com", Path := path } =
        lit "https://example.com" ++ path := by
    unfold URL.String
    simp only
    rw [if_neg (by simp), ha, hpathw]
    unfold URL.writeQuery URL.writeFragment
    simp only
    rw [if_neg (by simp), if_neg (by simp)]
  rw [hhead]
  by_cases hq : parameters.Encode = []
  · simp [hq]
  · simp [hq]

/-! ## The claims -/

/-- C1. The base-26 encoding loop of `newImage` is injective on positive integers: for
positive `n1 ≠ n2` the loop ends with a token for each, and the two tokens differ. -/
theorem encode_injective (n1 n2 : Int) (h1 : 0 < n1) (h2 : 0 < n2) (hne : n1 ≠ n2) :
    ∃ t1 t2, encode n1 = Run.done t1 ∧ encode n2 = Run.done t2 ∧ t1 ≠ t2 := by
  refine ⟨token n1.toNat, token n2.toNat, encode_eq n1, encode_eq n2, fun h => hne ?_⟩
  have := token_injective h
  omega

theorem encode_injective_witness :
    ∃ t1 t2, encode 1 = Run.done t1 ∧ encode 26 = Run.done t2 ∧ t1 ≠ t2 :=
  encode_injective 1 26 (by decide) (by decide) (by decide)

/-- C2. The output of the CRLF conversion loop never holds CR CR LF: every line feed in it
has exactly one carriage return immediately before it, and every carriage return has a line
feed immediately after it, whatever the input bytes are. -/
theorem toCRLF_line_endings (payload : GoString) :
    (∀ pre post, toCRLF payload = pre ++ 10 :: post →
      pre.getLast? = some 13 ∧ pre.dropLast.getLast? ≠ some 13) ∧
    (∀ pre post, toCRLF payload = pre ++ 13 :: post → post.head? = some 10) ∧
    ¬ [13, 13, 10] <:+: toCRLF payload := by
  have h : AllCRLF (toCRLF payload) := (isCRLF_iff _).mp (isCRLF_toCRLF payload)
  exact ⟨fun pre post e => ⟨h.1 pre post e, allCRLF_single_cr h pre post e⟩, h.2,
    allCRLF_no_crcrlf h⟩

/-- C3. On a byte sequence whose line endings are all CRLF the conversion loop returns its
input unchanged, so applying it twice gives the same bytes as applying it once. -/
theorem toCRLF_idempotent_on_crlf (s : GoString) (h : AllCRLF s) :
    toCRLF s = s ∧ toCRLF (toCRLF s) = toCRLF s := by
  have e : toCRLF s = s := toCRLF_of_isCRLF s ((isCRLF_iff s).mpr h)
  exact ⟨e, by rw [e, e]⟩

theorem toCRLF_idempotent_on_crlf_witness :
    AllCRLF (lit "To: a\r\n\r\nhi\r\n") ∧
    toCRLF (lit "To: a\r\n\r\nhi\r\n") = lit "To: a\r\n\r\nhi\r\n" ∧
    toCRLF (toCRLF (lit "To: a\r\n\r\nhi\r\n")) = toCRLF (lit "To: a\r\n\r\nhi\r\n") :=
  ⟨(isCRLF_iff _).mp (by decide),
    toCRLF_idempotent_on_crlf _ ((isCRLF_iff _).mp (by decide))⟩

/-- C9. The encoding loop gives the stated tokens: 1 gives "b", 26 gives "ba", 27 gives
"bb", and 0 gives the empty string. -/
theorem encode_examples :
    encode 1 = Run.done (lit "b") ∧ encode 26 = Run.done (lit "ba") ∧
    encode 27 = Run.done (lit "bb") ∧ encode 0 = Run.done (lit "") := by
  decide

/-- C10. The encoding loop ends for every integer, within any budget above the
identifier; for a positive identifier the token is non-empty, made of the letters
`a` to `z` only, and does not start with `a`. -/
theorem encode_token_shape (n : Int) :
    (∃ t, ∀ fuel, n.toNat < fuel → encodeLoop fuel n [] = Run.done t) ∧
    (0 < n → ∃ t, encode n = Run.done t ∧ t ≠ [] ∧
      (∀ b ∈ t, (97 : Byte) ≤ b ∧ b ≤ 122) ∧ t.head? ≠ some 97) := by
  refine ⟨⟨token n.toNat, fun fuel hf => by simpa using encodeLoop_eq fuel n [] hf⟩, ?_⟩
  intro hn
  have h0 : n.toNat ≠ 0 := by omega
  exact ⟨token n.toNat, encode_eq n, token_ne_nil h0, tokenLetters _, token_head h0⟩

theorem encode_token_shape_witness :
    ∃ t, encode 27 = Run.done t ∧ t ≠ [] ∧
      (∀ b ∈ t, (97 : Byte) ≤ b ∧ b ≤ 122) ∧ t.head? ≠ some 97 :=
  (encode_token_shape 27).2 (by decide)

/-- C6. For every list of positional tokens the loop builds a mapping in which every
token's key (the text before its first `=`) is a key, and a token without `=` has its key
present with the empty string among its values. -/
theorem buildParameters_keys (args : List GoString) :
    ∃ p, buildParameters args = some p ∧
      ∀ v ∈ args, (∃ vs, p.get (v.takeWhile (fun c => c ≠ 61)) = some vs) ∧
        ((61 : Byte) ∉ v → ∃ vs, p.get v = some vs ∧ [] ∈ vs) := by
  obtain ⟨q, hq, -, hall⟩ := foldlM_addArg args []
  refine ⟨q, hq, fun v hv => ?_⟩
  obtain ⟨vs, hget, hmem⟩ := hall v hv
  refine ⟨⟨vs, hget⟩, fun hne => ?_⟩
  obtain ⟨hk, hval⟩ := keyOf_of_not_mem hne
  rw [hk] at hget
  rw [hval] at hmem
  exact ⟨vs, hget, hmem⟩

/-- C7. The handler rejects exactly the requests whose host does not begin with "click":
such a request is answered 404 and no parameters record is written; any other request is
answered 200 after one record, the parsed form, is written, whatever `ParseForm`
returned. -/
theorem handler_routing (table : Nat → Bool) (r : Request) :
    (¬ lit "click" <+: r.Host →
      ∃ resp, handler table r = Run.done resp ∧ resp.status = 404 ∧ resp.records = []) ∧
    (lit "click" <+: r.Host →
      ∃ resp, handler table r = Run.done resp ∧ resp.status = 200 ∧
        resp.records = [r.Form]) := by
  constructor
  · intro h
    exact ⟨_, handler_rejected table r h, rfl, rfl⟩
  · intro h
    obtain ⟨q, resp, -, -, hr, hs, -, hrec⟩ := handler_accepted table r h
    exact ⟨resp, hr, hs, hrec⟩

/-- C8. For every accepted request the body is "Hello from " followed by the quoted
HTML-escaped path; it has no `<` and no `>`, and every `&` in it begins one of the
character references `&amp;`, `&#39;`, `&lt;`, `&gt;`, `&#34;`. -/
theorem handler_body_escaped (table : Nat → Bool) (r : Request) (h : lit "click" <+: r.Host) :
    ∃ resp quoted, handler table r = Run.done resp ∧
      Quote table (EscapeString r.Path) = Run.done quoted ∧
      resp.body = lit "Hello from " ++ quoted ∧
      (60 : Byte) ∉ resp.body ∧ (62 : Byte) ∉ resp.body ∧
      ∀ pre post, resp.body = pre ++ 38 :: post → ∃ e ∈ entities, e <+: 38 :: post := by
  obtain ⟨q, resp, hq, hsafe, hr, -, hb, -⟩ := handler_accepted table r h
  have hbody : NoMarkup (lit "Hello from " ++ q) :=
    noMarkup_append_clean (by unfold Clean; decide) hsafe
  rw [← hb] at hbody
  exact ⟨resp, q, hr, hq, hb, hbody.1, hbody.2.1, hbody.2.2⟩

theorem handler_body_escaped_witness :
    ∃ resp quoted,
      handler (fun _ => false)
        { Host := lit "click.example.com", Path := lit "/<a href=\"x\">&", URL := lit "/",
          RemoteAddr := lit "10.0.0.1:80", Form := [], ParseFormErr := none } = Run.done resp ∧
      Quote (fun _ => false) (EscapeString (lit "/<a href=\"x\">&")) = Run.done quoted ∧
      resp.body = lit "Hello from " ++ quoted ∧
      (60 : Byte) ∉ resp.body ∧ (62 : Byte) ∉ resp.body ∧
      ∀ pre post, resp.body = pre ++ 38 :: post → ∃ e ∈ entities, e <+: 38 :: post :=
  handler_body_escaped (fun _ => false)
    { Host := lit "click.example.com", Path := lit "/<a href=\"x\">&", URL := lit "/",
      RemoteAddr := lit "10.0.0.1:80", Form := [], ParseFormErr := none } (by decide)

/-- C4. For every list of argument tokens, with `P` the parameters they build, the query
of the built link is `P.Encode()`, the link holds it after `?`, and parsing it back with
`ParseQuery` gives, without error, a map equal to `P`: every key has the same list of values
in the same order, and no other key is present. -/
theorem query_roundtrip (u : URL) (path : GoString) (args : List GoString) :
    ∃ P, buildParameters args = some P ∧
      (setLink u path P).RawQuery = P.Encode ∧
      (setLink u path P).String =
        URL.String { setLink u path P with RawQuery := [], ForceQuery := false, Fragment := [] } ++
        (if u.ForceQuery ∨ P.Encode ≠ [] then [63] ++ P.Encode else []) ++
        (if u.Fragment ≠ [] then [35] ++ (setLink u path P).EscapedFragment else []) ∧
      ∃ parsed, ParseQuery (setLink u path P).RawQuery = Run.done (parsed, none) ∧
        ∀ k, parsed.get k = P.get k := by
  obtain ⟨P, hP, hwf⟩ := buildParameters_total args
  obtain ⟨parsed, hparsed, hget⟩ := ParseQuery_Encode P hwf
  refine ⟨P, hP, rfl, ?_, parsed, hparsed, hget⟩
  have := String_query (setLink u path P)
  have hf : (setLink u path P).ForceQuery = u.ForceQuery := by
    unfold setLink
    split_ifs <;> rfl
  have hfr : (setLink u path P).Fragment = u.Fragment := by
    unfold setLink
    split_ifs <;> rfl
  have hq : (setLink u path P).RawQuery = P.Encode := rfl
  rw [hf, hfr, hq] at this
  exact this

/-- C5. For the base URL `https://example.com/t` and the parameters `foo=bar` the link is
`https://example.com/t?foo=bar` without an explicit path and
`https://example.com/go?foo=bar` with the explicit path `/go`. In general a non-empty
explicit path becomes the path of the URL as it is, while the scheme, the host and the
encoded query are those of the URL without the override; on this base URL a path that
starts with a slash and needs no escaping is written into the link as it is. -/
theorem link_path_override :
    buildLink (lit "https://example.com/t") [] [(lit "foo", [lit "bar"])] =
      Except.ok (lit "https://example.com/t?foo=bar") ∧
    buildLink (lit "https://example.com/t") (lit "/go") [(lit "foo", [lit "bar"])] =
      Except.ok (lit "https://example.com/go?foo=bar") ∧
    (∀ (u : URL) (path : GoString) (parameters : Values), path ≠ [] →
      (setLink u path parameters).Path = path ∧
      (setLink u path parameters).Scheme = (setLink u [] parameters).Scheme ∧
      (setLink u path parameters).Host = (setLink u [] parameters).Host ∧
      (setLink u path parameters).RawQuery = (setLink u [] parameters).RawQuery ∧
      (setLink u path parameters).RawQuery = parameters.Encode) ∧
    (∀ (path : GoString) (parameters : Values), path.head? = some 47 →
      (∀ c ∈ path, shouldEscape c encodePath = false) →
      buildLink (lit "https://example.com/t") path parameters =
        Except.ok (lit "https://example.com" ++ path ++
          (if parameters.Encode = [] then [] else [63] ++ parameters.Encode))) := by
  refine ⟨by decide, by decide, ?_, fun path parameters h1 h2 =>
    buildLink_example_path path parameters h1 h2⟩
  intro u path parameters hne
  unfold setLink
  simp only [hne, ne_eq, not_false_eq_true, if_true, not_true_eq_false, if_false, and_self]

end Clickcheck
